import Mathlib

/-!
# Verification of the `loaden` configuration loader

Shallow embedding of `src/loaden/config.py` (functions `deep_merge`,
`load_config`, `_validate_required_keys`) and proofs of the spec claims.

Modelling conventions:
* A parsed YAML value is `Val`: scalars, sequences, and mappings.
* A Python `dict[str, Any]` is an association list `Dict := List (String × Val)`
  in insertion order.  Python dictionaries never contain a key twice, so
  theorems that need it carry a no-duplicate-keys hypothesis.
* Python `d[k] = v` (replace in place when the key exists, append otherwise)
  is `setKey`; `k in d` is `containsK`; `d[k]` is `lookupK`.
* The filesystem is a finite association list from canonical absolute path
  strings to file contents.  `Path.resolve()` is modelled as the identity on
  these canonical strings (no symlinks, no `..` segments), `path.parent` as
  `parentDir` and `/` as `slashJoin`.
* `load_config`'s recursion through the include graph is given a fuel
  parameter; running out of fuel yields `none`, a successfully completed call
  (returning a value or raising) yields `some`.
* The process environment `os.environ` is threaded through `load_config` as an
  association list from variable name to string.
-/

namespace Loaden

/-- A parsed YAML value: the result of `yaml.safe_load` restricted to the
data model of the spec (string, number, boolean, null, sequence, mapping). -/
inductive Val where
  | str (s : String)
  | int (n : Int)
  | bool (b : Bool)
  | null
  | seq (xs : List Val)
  | map (m : List (String × Val))

/-- A Python `dict[str, Any]` in insertion order. -/
abbrev Dict := List (String × Val)

/-- Python `d[k]` / `k in d` read: the value of the first entry with key `k`. -/
def lookupK : Dict → String → Option Val
  | [], _ => none
  | (k', v) :: rest, k => if k' = k then some v else lookupK rest k

/-- Python `k in d`. -/
def containsK (d : Dict) (k : String) : Bool :=
  (lookupK d k).isSome

/-- Python `d[k] = v`: replace the entry in place when the key exists
(keeping its position), append a new entry otherwise. -/
def setKey (d : Dict) (k : String) (v : Val) : Dict :=
  if containsK d k then
    d.map (fun p => if p.1 = k then (k, v) else p)
  else
    d ++ [(k, v)]

/-- `deep_merge(base, overlay)` from `config.py`:
`result = base.copy()`, then for each `(key, value)` in `overlay`, if the key
is present in `result` and both the present value and `value` are mappings,
recursively merge them, otherwise assign `value`.  The traversal threads the
evolving `result` exactly as the Python loop does. -/
def deep_merge : Dict → Dict → Dict
  | base, [] => base
  | base, (k, Val.map m2) :: rest =>
    match lookupK base k with
    | some (Val.map m1) => deep_merge (setKey base k (Val.map (deep_merge m1 m2))) rest
    | _ => deep_merge (setKey base k (Val.map m2)) rest
  | base, (k, v) :: rest => deep_merge (setKey base k v) rest
termination_by _ o => sizeOf o
decreasing_by all_goals (simp_wf <;> omega)

/-- The value `deep_merge` stores for one overlay entry: the recursive merge
when the key is present in the evolving result with both values mappings,
the overlay value unchanged otherwise. -/
def mergeStepVal (b : Dict) (k : String) (v : Val) : Val :=
  match lookupK b k, v with
  | some (Val.map m1), Val.map m2 => Val.map (deep_merge m1 m2)
  | _, _ => v

/-- Python `dict.pop k` (as used on `loaden_include`): drop the entry with key `k`. -/
def removeKey (d : Dict) (k : String) : Dict :=
  d.filter (fun p => p.1 != k)

/-- Python `list.remove y` guarded by `if y in l` (the `finally` block of
`load_config`): delete the first occurrence of `y`, no-op when absent. -/
def removeFirst : List String → String → List String
  | [], _ => []
  | x :: rest, y => if x = y then rest else x :: removeFirst rest y

/-- The keys of a dictionary are pairwise distinct — the invariant every value
of Python type `dict` satisfies by construction. -/
def keysNodupB : Dict → Bool
  | [] => true
  | (k, _) :: rest => !(containsK rest k) && keysNodupB rest

mutual

/-- Every mapping inside the value has pairwise distinct keys: the shape
every tree produced by `yaml.safe_load` has. -/
def valWF : Val → Bool
  | Val.str _ => true
  | Val.int _ => true
  | Val.bool _ => true
  | Val.null => true
  | Val.seq xs => seqWF xs
  | Val.map m => keysNodupB m && entriesWF m
termination_by v => sizeOf v

def seqWF : List Val → Bool
  | [] => true
  | v :: rest => valWF v && seqWF rest
termination_by xs => sizeOf xs

def entriesWF : List (String × Val) → Bool
  | [] => true
  | (_, v) :: rest => valWF v && entriesWF rest
termination_by m => sizeOf m

end

/-- Walk a value along a list of keys, descending through nested mappings
(the spec-side view of a dotted required-key path). -/
def getPath : Val → List String → Option Val
  | v, [] => some v
  | Val.map m, k :: rest =>
    match lookupK m k with
    | some v => getPath v rest
    | none => none
  | _, _ :: _ => none

/-- The value is not a mapping (Python: `not isinstance(v, dict)`). -/
def nonMap : Val → Bool
  | Val.map _ => false
  | _ => true

/-- Spec-side statement of the merge contract for one key: both values
mappings means recursive merge, an overlay value present otherwise replaces,
an absent overlay key passes the base value through. -/
def mergedLookup (base overlay : Dict) (k : String) : Option Val :=
  match lookupK overlay k, lookupK base k with
  | some (Val.map m2), some (Val.map m1) => some (Val.map (deep_merge m1 m2))
  | some v, _ => some v
  | none, w => w

/-- The dot character separating the segments of a required-key path. -/
def dotChar : Char := Char.ofNat 46

/-- The slash character separating path components. -/
def slashChar : Char := Char.ofNat 47

/-- Split a character list at every occurrence of `c` (helper for
`splitOnChar`). -/
def splitCharsAux (c : Char) : List Char → List Char → List (List Char)
  | [], acc => [acc.reverse]
  | x :: rest, acc =>
    if x = c then acc.reverse :: splitCharsAux c rest []
    else splitCharsAux c rest (x :: acc)

/-- Python `s.split(sep)` for a one-character separator (the source only
splits on "." and "/"): empty input gives one empty piece, adjacent
separators give empty pieces. -/
def splitOnChar (c : Char) (s : String) : List String :=
  (splitCharsAux c s.data []).map String.mk

/-- The per-path walk of `_validate_required_keys`: `current` starts at the
document and each part requires `isinstance(current, dict) and part in
current` before descending. -/
def walkOk : Val → List String → Bool
  | _, [] => true
  | Val.map m, part :: rest =>
    match lookupK m part with
    | some v => walkOk v rest
    | none => false
  | _, _ :: _ => false

/-- The `missing` list accumulated by `_validate_required_keys`: every path
is checked and appended on failure, in input order. -/
def missingOf (config : Dict) (required_keys : List String) : List String :=
  required_keys.foldl
    (fun acc key_path =>
      if walkOk (Val.map config) (splitOnChar dotChar key_path) then acc
      else acc ++ [key_path])
    []

/-- The exceptions `load_config` and `_validate_required_keys` raise.
`typeErr` stands for the `TypeError`/`AttributeError` Python raises when a
reserved section has an unusable shape (include value that is not a string,
list of strings, or mapping; env section that is not a mapping). -/
inductive LoadErr where
  | notFound (path : String)
  | parseError (path : String)
  | invalidShape (path : String)
  | circularInclude (chain : List String)
  | missingRequiredKeys (path : String) (missing : List String)
  | typeErr
deriving DecidableEq, Repr

/-- `_validate_required_keys(config, required_keys, config_path)`: raise iff
the collected missing list is nonempty, listing every missing path. -/
def validateRequiredKeys (config : Dict) (required_keys : List String)
    (config_path : String) : Except LoadErr Unit :=
  let missing := missingOf config required_keys
  if missing.isEmpty then Except.ok () else
    Except.error (LoadErr.missingRequiredKeys config_path missing)

/-- A single quote character, used by the Python repr of strings. -/
def squote : String := String.singleton (Char.ofNat 39)

mutual

/-- Python `repr` of a parsed YAML value (the form `str` uses inside
containers).  Escaping of special characters inside strings is not modelled;
the env section the claims exercise holds only scalars. -/
def pyRepr : Val → String
  | Val.str s => squote ++ s ++ squote
  | Val.int n => toString n
  | Val.bool true => "True"
  | Val.bool false => "False"
  | Val.null => "None"
  | Val.seq xs => "[" ++ pyReprList xs ++ "]"
  | Val.map m => "\x7b" ++ pyReprDict m ++ "\x7d"
termination_by v => sizeOf v

def pyReprList : List Val → String
  | [] => ""
  | [v] => pyRepr v
  | v :: rest => pyRepr v ++ ", " ++ pyReprList rest
termination_by xs => sizeOf xs

def pyReprDict : List (String × Val) → String
  | [] => ""
  | [(k, v)] => squote ++ k ++ squote ++ ": " ++ pyRepr v
  | (k, v) :: rest => squote ++ k ++ squote ++ ": " ++ pyRepr v ++ ", " ++ pyReprDict rest
termination_by m => sizeOf m

end

/-- Python `str(value)` as applied to env-section values: strings pass
through verbatim, other values through their repr (ints in decimal, booleans
as "True"/"False", None as "None"). -/
def pyStr : Val → String
  | Val.str s => s
  | v => pyRepr v

/-- The process environment `os.environ`, threaded as state. -/
abbrev Env := List (String × String)

/-- `os.environ.get k`. -/
def envGet : Env → String → Option String
  | [], _ => none
  | (k', v) :: rest, k => if k' = k then some v else envGet rest k

/-- Python `k in os.environ`. -/
def envHas (env : Env) (k : String) : Bool :=
  (envGet env k).isSome

/-- The root-only env loop: `for key, value in config["env"].items(): if key
not in os.environ: os.environ[key] = str(value)`. -/
def seedEnv (env : Env) (em : Dict) : Env :=
  em.foldl (fun env kv => if envHas env kv.1 then env else env ++ [(kv.1, pyStr kv.2)]) env

/-- What reading and parsing one file yields: a YAML syntax error, or a
parse result (where `none` models the empty file, which `yaml.safe_load`
returns as `None`). -/
inductive FileData where
  | bad
  | parsed (v : Option Val)

/-- The filesystem: a finite map from canonical absolute path strings to
file contents.  A path outside the map does not exist. -/
abbrev FS := List (String × FileData)

/-- Existence check plus read: `path.exists()` and `open(path)`. -/
def fsGet : FS → String → Option FileData
  | [], _ => none
  | (p', fd) :: rest, p => if p' = p then some fd else fsGet rest p

/-- `Path(p).parent` on an absolute path string: everything before the final
slash. -/
def parentDir (p : String) : String :=
  String.intercalate "/" ((splitOnChar slashChar p).dropLast)

/-- `Path(dir) / rel`. -/
def slashJoin (dir rel : String) : String :=
  dir ++ "/" ++ rel

/-- `Path(p).resolve()`.  Paths are modelled as already-canonical absolute
strings (no symlinks, no dot segments), on which resolution is the
identity. -/
def resolvePath (p : String) : String := p

/-- What `for include_path in includes` iterates over, after the
`isinstance(includes, str)` wrap: a bare string becomes a one-element list, a
list yields its elements, a mapping yields its keys, and any other value
raises `TypeError` (not iterable).  A non-string element raises its
`TypeError` later, at its own turn of the loop, when joined to a path. -/
def iterValues : Val → Except LoadErr (List Val)
  | Val.str s => Except.ok [Val.str s]
  | Val.seq xs => Except.ok xs
  | Val.map m => Except.ok (m.map (fun p => Val.str p.1))
  | _ => Except.error LoadErr.typeErr

/-- The code after the `try/finally` of `load_config`: recompute whether this
is the root call from the unwound stack, seed the environment, and validate
required keys (`if required_keys:` is false for both `None` and `[]`). -/
def rootPostProcess (config : Dict) (config_path : String)
    (required_keys : Option (List String)) (stack_after : List String)
    (env : Env) : Except LoadErr (Dict × Env) :=
  if stack_after.isEmpty then
    match lookupK config "env" with
    | some (Val.map em) =>
      let env1 := seedEnv env em
      match required_keys with
      | some (k :: ks) =>
        (validateRequiredKeys config (k :: ks) config_path).map (fun _ => (config, env1))
      | _ => Except.ok (config, env1)
    | some _ => Except.error LoadErr.typeErr
    | none =>
      match required_keys with
      | some (k :: ks) =>
        (validateRequiredKeys config (k :: ks) config_path).map (fun _ => (config, env))
      | _ => Except.ok (config, env)
  else Except.ok (config, env)

mutual

/-- `load_config(config_path, required_keys, _include_stack)` over the
modelled filesystem, threading `os.environ` and spending one unit of fuel
per call (`none` = fuel ran out; `some` = the Python call finished, either
returning a configuration or raising). -/
def load_config (fs : FS) :
    Nat → String → Option (List String) → List String → Env →
    Option (Except LoadErr (Dict × Env))
  | 0, _, _, _, _ => none
  | fuel + 1, config_path, required_keys, include_stack, env =>
    match fsGet fs config_path with
    | none => some (Except.error (LoadErr.notFound config_path))
    | some fd =>
      let resolved := resolvePath config_path
      if resolved ∈ include_stack then
        some (Except.error (LoadErr.circularInclude (include_stack ++ [resolved])))
      else
        let stack1 := include_stack ++ [resolved]
        match fd with
        | FileData.bad => some (Except.error (LoadErr.parseError config_path))
        | FileData.parsed pv =>
          match pv with
          | some (Val.map config0) =>
            if containsK config0 "loaden_include" then
              let includesVal := (lookupK config0 "loaden_include").getD Val.null
              let config1 := removeKey config0 "loaden_include"
              match iterValues includesVal with
              | Except.error e => some (Except.error e)
              | Except.ok includes =>
                match loadIncludes fs fuel (parentDir config_path) includes stack1 env [] with
                | none => none
                | some (Except.error e) => some (Except.error e)
                | some (Except.ok (base_config, env1)) =>
                  some (rootPostProcess (deep_merge base_config config1) config_path
                    required_keys (removeFirst stack1 resolved) env1)
            else
              some (rootPostProcess config0 config_path required_keys
                (removeFirst stack1 resolved) env)
          | some _ => some (Except.error (LoadErr.invalidShape config_path))
          | none =>
            some (rootPostProcess [] config_path required_keys
              (removeFirst stack1 resolved) env)
termination_by fuel _ _ _ _ => (fuel, 0)

/-- The include loop of `load_config`: for each include path in order, join
it to the directory of the current file (a non-string raises `TypeError`
here), load it recursively (with a copy of the extended stack and without
required-key validation) and fold it into the accumulator with the merger. -/
def loadIncludes (fs : FS) :
    Nat → String → List Val → List String → Env → Dict →
    Option (Except LoadErr (Dict × Env))
  | _, _, [], _, env, base_config => some (Except.ok (base_config, env))
  | fuel, dir, Val.str rel :: rest, stack, env, base_config =>
    match load_config fs fuel (slashJoin dir rel) none stack env with
    | none => none
    | some (Except.error e) => some (Except.error e)
    | some (Except.ok (included, env1)) =>
      loadIncludes fs fuel dir rest stack env1 (deep_merge base_config included)
  | _, _, _ :: _, _, _, _ => some (Except.error LoadErr.typeErr)
termination_by fuel _ incs _ _ _ => (fuel, incs.length + 1)

end

/-- Spec-side view of include resolution: load the listed documents in
order, collecting them into a list (before any merging). -/
def loadIncludeDocs (fs : FS) (fuel : Nat) (dir : String) :
    List Val → List String → Env → Option (Except LoadErr (List Dict × Env))
  | [], _, env => some (Except.ok ([], env))
  | Val.str rel :: rest, stack, env =>
    match load_config fs fuel (slashJoin dir rel) none stack env with
    | none => none
    | some (Except.error e) => some (Except.error e)
    | some (Except.ok (d, env1)) =>
      match loadIncludeDocs fs fuel dir rest stack env1 with
      | none => none
      | some (Except.error e) => some (Except.error e)
      | some (Except.ok (docs, env2)) => some (Except.ok (d :: docs, env2))
  | _ :: _, _, _ => some (Except.error LoadErr.typeErr)

/-- The canonical paths a file directly includes (a superset of the paths the
loader can reach from it in one step): empty when the file is missing,
unparseable, not a mapping, or carries no include directive. -/
def childPaths (fs : FS) (p : String) : List String :=
  match fsGet fs p with
  | some (FileData.parsed (some (Val.map m))) =>
    if containsK m "loaden_include" then
      match iterValues ((lookupK m "loaden_include").getD Val.null) with
      | Except.ok includes =>
        includes.filterMap (fun v =>
          match v with
          | Val.str rel => some (resolvePath (slashJoin (parentDir p) rel))
          | _ => none)
      | Except.error _ => []
    else []
  | _ => []

/-- Boolean membership in a list of path strings. -/
def memB (x : String) : List String → Bool
  | [] => false
  | y :: rest => (y = x) || memB x rest

/-- Fuel measure for termination: how many filesystem paths are not yet on
the include stack. -/
def remainingCount (fs : FS) (stack : List String) : Nat :=
  ((fs.map Prod.fst).filter (fun k => !(memB k stack))).length

mutual

/-- Does the string occur as a mapping key anywhere inside the value, at any
depth, through mappings and sequences? -/
def valHasKey : Val → String → Bool
  | Val.map m, k => containsK m k || entriesHaveKey m k
  | Val.seq xs, k => seqHasKey xs k
  | _, _ => false
termination_by v _ => sizeOf v

def seqHasKey : List Val → String → Bool
  | [], _ => false
  | v :: rest, k => valHasKey v k || seqHasKey rest k
termination_by xs _ => sizeOf xs

def entriesHaveKey : List (String × Val) → String → Bool
  | [], _ => false
  | (_, v) :: rest, k => valHasKey v k || entriesHaveKey rest k
termination_by m _ => sizeOf m

end

/-- A dotted path is present by key membership alone: at every segment the
current value is a mapping containing the key, and the walk descends into
the corresponding value — whatever that value is (null included). -/
inductive PresentByMembership : Val → List String → Prop where
  | nil (v : Val) : PresentByMembership v []
  | cons (m : Dict) (k : String) (v : Val) (rest : List String) :
      lookupK m k = some v → PresentByMembership v rest →
      PresentByMembership (Val.map m) (k :: rest)

/-! ### Concrete filesystems used to instantiate the claims

These mirror the scenarios of the spec (section 8) and of
`tests/test_config.py`: multi-include ordering, the diamond dependency, the
three-file include cycle, and a file with a nested occurrence of the include
key. -/

/-- first.yaml / second.yaml / main.yaml from the multi-include ordering
scenario. -/
def fsMulti : FS :=
  [ ("/t/first.yaml", FileData.parsed (some (Val.map [("a", Val.int 1), ("b", Val.str "first")]))),
    ("/t/second.yaml", FileData.parsed (some (Val.map [("b", Val.str "second"), ("c", Val.int 3)]))),
    ("/t/main.yaml", FileData.parsed (some (Val.map
      [("loaden_include", Val.seq [Val.str "first.yaml", Val.str "second.yaml"]),
       ("d", Val.int 4)]))) ]

/-- shared/left/right/config from the diamond-dependency scenario. -/
def fsDiamond : FS :=
  [ ("/t/shared.yaml", FileData.parsed (some (Val.map [("shared", Val.str "value")]))),
    ("/t/left.yaml", FileData.parsed (some (Val.map
      [("loaden_include", Val.str "shared.yaml"), ("left", Val.str "value")]))),
    ("/t/right.yaml", FileData.parsed (some (Val.map
      [("loaden_include", Val.str "shared.yaml"), ("right", Val.str "value")]))),
    ("/t/config.yaml", FileData.parsed (some (Val.map
      [("loaden_include", Val.seq [Val.str "left.yaml", Val.str "right.yaml"]),
       ("main", Val.str "value")]))) ]

/-- a.yaml -> b.yaml -> c.yaml -> a.yaml from the include-cycle scenario. -/
def fsCycle : FS :=
  [ ("/t/a.yaml", FileData.parsed (some (Val.map [("loaden_include", Val.str "b.yaml"), ("a", Val.int 1)]))),
    ("/t/b.yaml", FileData.parsed (some (Val.map [("loaden_include", Val.str "c.yaml"), ("b", Val.int 2)]))),
    ("/t/c.yaml", FileData.parsed (some (Val.map [("loaden_include", Val.str "a.yaml"), ("c", Val.int 3)]))) ]

/-- A single file with an env section, for the environment-seeding claim. -/
def fsEnv : FS :=
  [ ("/t/env.yaml", FileData.parsed (some (Val.map
      [("env", Val.map [("NEW_VAR", Val.str "new"), ("OLD_VAR", Val.str "config")]),
       ("key", Val.str "v")]))) ]

/-- A single file whose document nests the include key inside another
mapping. -/
def fsNested : FS :=
  [ ("/t/c.yaml", FileData.parsed (some (Val.map
      [("outer", Val.map [("loaden_include", Val.str "x")])]))) ]

/-! ### Heap model of `deep_merge` for the mutation claim

Python dictionaries are mutable objects; to state that `deep_merge` mutates
neither input, dictionaries are given identities on a heap.  Scalars and
lists stay inline: the source never mutates a list (they are only moved by
reference), so lists need no heap identity to observe mutation of the
inputs. -/

/-- A Python runtime value held in a dict slot: scalars and lists inline,
dictionaries by reference. -/
inductive PVal where
  | str (s : String)
  | int (n : Int)
  | bool (b : Bool)
  | null
  | list (xs : List PVal)
  | ref (a : Nat)

/-- The entry list of one dict object. -/
abbrev PDict := List (String × PVal)

/-- The heap: dict object address to its current entries. -/
abbrev Heap := List (Nat × PDict)

/-- Dereference a dict object. -/
def hGet : Heap → Nat → Option PDict
  | [], _ => none
  | (a', d) :: rest, a => if a' = a then some d else hGet rest a

/-- Overwrite the contents of an existing dict object (mutation). -/
def hSet : Heap → Nat → PDict → Heap
  | [], _, _ => []
  | (a', d) :: rest, a, nd => if a' = a then (a, nd) :: rest else (a', d) :: hSet rest a nd

/-- An address strictly above every address in the heap. -/
def freshAddr (h : Heap) : Nat :=
  h.foldr (fun p acc => max (p.1 + 1) acc) 0

/-- Slot read inside one dict object. -/
def plookup : PDict → String → Option PVal
  | [], _ => none
  | (k', v) :: rest, k => if k' = k then some v else plookup rest k

/-- Python `d[k] = v` on one dict object. -/
def psetKey (d : PDict) (k : String) (v : PVal) : PDict :=
  if (plookup d k).isSome then
    d.map (fun p => if p.1 = k then (k, v) else p)
  else
    d ++ [(k, v)]

mutual

/-- Heap-level `deep_merge(base, overlay)`: `result = base.copy()` allocates
a fresh dict object holding the entries of `base`, then the overlay loop
writes into that fresh object only. -/
def deep_merge_heap : Nat → Heap → Nat → Nat → Option (Heap × Nat)
  | 0, _, _, _ => none
  | fuel + 1, h, base, overlay =>
    match hGet h base, hGet h overlay with
    | some bents, some oents =>
      let r := freshAddr h
      mergeLoop fuel ((r, bents) :: h) r oents
    | _, _ => none
termination_by fuel _ _ _ => (fuel, 0)

/-- The `for key, value in overlay.items()` loop of `deep_merge`, writing
into the result object `r`. -/
def mergeLoop : Nat → Heap → Nat → PDict → Option (Heap × Nat)
  | _, h, r, [] => some (h, r)
  | fuel, h, r, (k, v) :: rest =>
    match hGet h r with
    | none => none
    | some rents =>
      match plookup rents k, v with
      | some (PVal.ref a), PVal.ref b =>
        match deep_merge_heap fuel h a b with
        | none => none
        | some (h1, sub) =>
          match hGet h1 r with
          | none => none
          | some rents1 => mergeLoop fuel (hSet h1 r (psetKey rents1 k (PVal.ref sub))) r rest
      | _, _ => mergeLoop fuel (hSet h r (psetKey rents k v)) r rest
termination_by fuel _ _ ents => (fuel, ents.length + 1)

end

mutual

/-- Deep read-back of a runtime value from the heap into a pure tree: the
structural snapshot of everything reachable, spending fuel at every level. -/
def snapVal : Nat → Heap → PVal → Option Val
  | 0, _, _ => none
  | _ + 1, _, PVal.str s => some (Val.str s)
  | _ + 1, _, PVal.int n => some (Val.int n)
  | _ + 1, _, PVal.bool b => some (Val.bool b)
  | _ + 1, _, PVal.null => some Val.null
  | fuel + 1, h, PVal.list xs => (snapList fuel h xs).map Val.seq
  | fuel + 1, h, PVal.ref a =>
    match hGet h a with
    | none => none
    | some d => (snapDict fuel h d).map Val.map
termination_by fuel _ _ => fuel

def snapList : Nat → Heap → List PVal → Option (List Val)
  | 0, _, _ => none
  | _ + 1, _, [] => some []
  | fuel + 1, h, v :: rest =>
    match snapVal fuel h v, snapList fuel h rest with
    | some t, some ts => some (t :: ts)
    | _, _ => none
termination_by fuel _ _ => fuel

def snapDict : Nat → Heap → PDict → Option Dict
  | 0, _, _ => none
  | _ + 1, _, [] => some []
  | fuel + 1, h, (k, v) :: rest =>
    match snapVal fuel h v, snapDict fuel h rest with
    | some t, some ts => some ((k, t) :: ts)
    | _, _ => none
termination_by fuel _ _ => fuel

end

/-! ## Dictionary lemmas -/

theorem lookupK_append (d e : Dict) (k : String) :
    lookupK (d ++ e) k =
      match lookupK d k with
      | some v => some v
      | none => lookupK e k := by
  induction d with
  | nil => simp [lookupK]
  | cons p rest ih =>
    obtain ⟨k0, v0⟩ := p
    by_cases h : k0 = k <;> simp [lookupK, h, ih]

theorem lookupK_replace (d : Dict) (k : String) (v : Val) :
    lookupK (d.map (fun p => if p.1 = k then (k, v) else p)) k =
      if containsK d k then some v else none := by
  induction d with
  | nil => simp [lookupK, containsK]
  | cons p rest ih =>
    obtain ⟨k0, v0⟩ := p
    by_cases h : k0 = k
    · subst h
      simp only [List.map, if_pos (show (k0, v0).1 = k0 from rfl)]
      simp [lookupK, containsK]
    · simp only [List.map, if_neg (show ¬((k0, v0).1 = k) from h)]
      simp [lookupK, containsK, h, ih]

theorem lookupK_replace_ne (d : Dict) (k k' : String) (v : Val) (h : k' ≠ k) :
    lookupK (d.map (fun p => if p.1 = k then (k, v) else p)) k' = lookupK d k' := by
  induction d with
  | nil => simp [lookupK]
  | cons p rest ih =>
    obtain ⟨k0, v0⟩ := p
    by_cases h0 : k0 = k
    · subst h0
      have : ¬(k0 = k') := fun hk => h hk.symm
      simp only [List.map, if_pos (show (k0, v0).1 = k0 from rfl)]
      simp [lookupK, this, ih]
    · simp only [List.map, if_neg (show ¬((k0, v0).1 = k) from h0)]
      by_cases h1 : k0 = k' <;> simp [lookupK, h1, ih]

theorem lookupK_setKey_self (d : Dict) (k : String) (v : Val) :
    lookupK (setKey d k v) k = some v := by
  unfold setKey
  by_cases h : containsK d k
  · simp [h, lookupK_replace]
  · have hn : lookupK d k = none := by
      cases hd : lookupK d k with
      | none => rfl
      | some w => exact absurd (by simp [containsK, hd]) h
    simp [h, lookupK_append, hn, lookupK]

theorem lookupK_setKey_ne (d : Dict) (k k' : String) (v : Val) (h : k' ≠ k) :
    lookupK (setKey d k v) k' = lookupK d k' := by
  unfold setKey
  by_cases hc : containsK d k
  · simp [hc, lookupK_replace_ne d k k' v h]
  · simp [hc, lookupK_append]
    cases hd : lookupK d k' with
    | none =>
      simp [lookupK]
      exact Ne.symm h
    | some w => simp

/-! ## deep_merge lemmas -/

theorem deep_merge_nil (b : Dict) : deep_merge b [] = b := by
  simp [deep_merge]

theorem deep_merge_cons (b : Dict) (k : String) (v : Val) (rest : Dict) :
    deep_merge b ((k, v) :: rest) = deep_merge (setKey b k (mergeStepVal b k v)) rest := by
  cases v with
  | map m2 =>
    cases h : lookupK b k with
    | none => simp [deep_merge, mergeStepVal, h]
    | some w => cases w <;> simp [deep_merge, mergeStepVal, h]
  | str s => simp [deep_merge, mergeStepVal]
  | int n => simp [deep_merge, mergeStepVal]
  | bool b0 => simp [deep_merge, mergeStepVal]
  | null => simp [deep_merge, mergeStepVal]
  | seq xs => simp [deep_merge, mergeStepVal]

theorem keysNodupB_cons (k : String) (v : Val) (rest : Dict)
    (h : keysNodupB ((k, v) :: rest) = true) :
    containsK rest k = false ∧ keysNodupB rest = true := by
  simp [keysNodupB] at h
  exact ⟨by simp [h.1], h.2⟩

theorem lookupK_none_of_not_contains (d : Dict) (k : String) (h : containsK d k = false) :
    lookupK d k = none := by
  cases hd : lookupK d k with
  | none => rfl
  | some v => simp [containsK, hd] at h

/-- The value-level content of the merge contract: looking up any key in
`deep_merge base overlay` gives exactly what the spec describes, provided the
overlay is a genuine dictionary (no duplicate keys). -/
theorem lookupK_deep_merge (o : Dict) (ho : keysNodupB o = true) :
    ∀ (b : Dict) (k : String), lookupK (deep_merge b o) k = mergedLookup b o k := by
  induction o with
  | nil =>
    intro b k
    simp [deep_merge_nil, mergedLookup, lookupK]
  | cons p rest ih =>
    obtain ⟨k0, v0⟩ := p
    obtain ⟨hfresh, hrest⟩ := keysNodupB_cons k0 v0 rest ho
    intro b k
    rw [deep_merge_cons, ih hrest]
    by_cases hk : k = k0
    · subst hk
      have h1 : lookupK rest k = none := lookupK_none_of_not_contains rest k hfresh
      have h2 : lookupK (setKey b k (mergeStepVal b k v0)) k = some (mergeStepVal b k v0) :=
        lookupK_setKey_self b k (mergeStepVal b k v0)
      simp only [mergedLookup, h1, h2, lookupK, if_pos rfl]
      cases v0 with
      | map m2 =>
        cases hb : lookupK b k with
        | none => simp [mergeStepVal, hb]
        | some w => cases w <;> simp [mergeStepVal, hb]
      | str s => cases hb : lookupK b k with
        | none => simp [mergeStepVal, hb]
        | some w => cases w <;> simp [mergeStepVal, hb]
      | int n => cases hb : lookupK b k with
        | none => simp [mergeStepVal, hb]
        | some w => cases w <;> simp [mergeStepVal, hb]
      | bool b0 => cases hb : lookupK b k with
        | none => simp [mergeStepVal, hb]
        | some w => cases w <;> simp [mergeStepVal, hb]
      | null => cases hb : lookupK b k with
        | none => simp [mergeStepVal, hb]
        | some w => cases w <;> simp [mergeStepVal, hb]
      | seq xs => cases hb : lookupK b k with
        | none => simp [mergeStepVal, hb]
        | some w => cases w <;> simp [mergeStepVal, hb]
    · have h0 : k0 ≠ k := fun h => hk h.symm
      have h2 : lookupK (setKey b k0 (mergeStepVal b k0 v0)) k = lookupK b k :=
        lookupK_setKey_ne b k0 k (mergeStepVal b k0 v0) hk
      simp only [mergedLookup, h2, lookupK, if_neg h0]

theorem containsK_of_mem (d : Dict) (kv : String × Val) (h : kv ∈ d) :
    containsK d kv.1 = true := by
  induction d with
  | nil => cases h
  | cons p rest ih =>
    cases List.mem_cons.mp h with
    | inl he =>
      subst he
      simp [containsK, lookupK]
    | inr hm =>
      have hr := ih hm
      by_cases hp : p.1 = kv.1
      · obtain ⟨pk, pv⟩ := p
        simp at hp
        subst hp
        simp [containsK, lookupK]
      · obtain ⟨pk, pv⟩ := p
        simp at hp
        simp [containsK, lookupK, hp]
        simpa [containsK] using hr

theorem deep_merge_of_disjoint (o : Dict) (ho : keysNodupB o = true) :
    ∀ b, (∀ kv ∈ o, lookupK b kv.1 = none) → deep_merge b o = b ++ o := by
  induction o with
  | nil =>
    intro b _
    simp [deep_merge_nil]
  | cons p rest ih =>
    obtain ⟨k0, v0⟩ := p
    obtain ⟨hfresh, hrest⟩ := keysNodupB_cons k0 v0 rest ho
    intro b hb
    have hbk : lookupK b k0 = none := hb (k0, v0) (List.mem_cons_self _ _)
    rw [deep_merge_cons]
    have hsv : mergeStepVal b k0 v0 = v0 := by
      cases v0 <;> simp [mergeStepVal, hbk]
    have hset : setKey b k0 (mergeStepVal b k0 v0) = b ++ [(k0, v0)] := by
      have hc : containsK b k0 = false := by simp [containsK, hbk]
      simp [setKey, hc, hsv]
    rw [hset, ih hrest (b ++ [(k0, v0)]) ?_]
    · simp
    · intro kv hkv
      have hne : k0 ≠ kv.1 := by
        intro he
        have := containsK_of_mem rest kv hkv
        rw [← he] at this
        rw [this] at hfresh
        cases hfresh
      rw [lookupK_append, hb kv (List.mem_cons_of_mem _ hkv)]
      simp [lookupK, hne]

/-- C4: the merged document contains every key of both inputs; a key present
in both with both values mappings gets the recursive merge; every other key
present in the overlay — a non-mapping on either side, sequences, and null
included — gets the overlay value unchanged; a key present in only one input
passes through.  `deep_merge` is a total function by construction: it has no
error outcome for any two documents. -/
theorem claim_C4 (base overlay : Dict) (k : String) (ho : keysNodupB overlay = true) :
    lookupK (deep_merge base overlay) k = mergedLookup base overlay k ∧
    containsK (deep_merge base overlay) k = (containsK base k || containsK overlay k) := by
  have h := lookupK_deep_merge overlay ho base k
  refine ⟨h, ?_⟩
  rw [containsK, h, mergedLookup]
  cases ho2 : lookupK overlay k with
  | none => simp [containsK, ho2]
  | some v =>
    cases v with
    | map m2 =>
      cases hb : lookupK base k with
      | none => simp [containsK, hb, ho2]
      | some w => cases w <;> simp [containsK, hb, ho2]
    | str s => simp [containsK, ho2]
    | int n => simp [containsK, ho2]
    | bool b0 => simp [containsK, ho2]
    | null => simp [containsK, ho2]
    | seq xs => simp [containsK, ho2]

theorem claim_C4_witness :
    keysNodupB [("b", Val.null), ("c", Val.int 3)] = true ∧
    (lookupK (deep_merge [("a", Val.int 1), ("b", Val.int 2)] [("b", Val.null), ("c", Val.int 3)]) "b" =
        mergedLookup [("a", Val.int 1), ("b", Val.int 2)] [("b", Val.null), ("c", Val.int 3)] "b" ∧
      containsK (deep_merge [("a", Val.int 1), ("b", Val.int 2)] [("b", Val.null), ("c", Val.int 3)]) "b" =
        (containsK [("a", Val.int 1), ("b", Val.int 2)] "b" ||
          containsK [("b", Val.null), ("c", Val.int 3)] "b")) :=
  ⟨by decide, claim_C4 [("a", Val.int 1), ("b", Val.int 2)] [("b", Val.null), ("c", Val.int 3)] "b" (by decide)⟩

/-- C9: merging any document with the empty mapping, on either side, gives
back a document structurally equal to the input (Lean equality of the
association lists is deep structural equality). -/
theorem claim_C9 (X : Dict) (h : keysNodupB X = true) :
    deep_merge X [] = X ∧ deep_merge [] X = X := by
  constructor
  · exact deep_merge_nil X
  · rw [deep_merge_of_disjoint X h [] (fun kv _ => rfl)]
    simp

theorem valWF_map_elim (m : Dict) (h : valWF (Val.map m) = true) :
    keysNodupB m = true ∧ entriesWF m = true := by
  simpa [valWF] using h

theorem entriesWF_lookup (m : Dict) (k : String) (v : Val) :
    entriesWF m = true → lookupK m k = some v → valWF v = true := by
  induction m with
  | nil => simp [lookupK]
  | cons p rest ih =>
    obtain ⟨k0, v0⟩ := p
    intro hw hl
    have hw2 : valWF v0 = true ∧ entriesWF rest = true := by simpa [entriesWF] using hw
    by_cases h : k0 = k
    · have : v0 = v := by simpa [lookupK, h] using hl
      rw [← this]
      exact hw2.1
    · exact ih hw2.2 (by simpa [lookupK, h] using hl)

theorem lookupK_merge_some (o : Dict) (b : Dict) (k : String) (w : Val)
    (hnd : keysNodupB o = true) (hl : lookupK o k = some w) :
    lookupK (deep_merge b o) k =
      match w, lookupK b k with
      | Val.map m2, some (Val.map m1) => some (Val.map (deep_merge m1 m2))
      | _, _ => some w := by
  cases hb : lookupK b k with
  | none => cases w <;> simp [lookupK_deep_merge o hnd b k, mergedLookup, hl, hb]
  | some u =>
    cases w <;> cases u <;> simp [lookupK_deep_merge o hnd b k, mergedLookup, hl, hb]

theorem lookupK_merge_of_overlay_absent (o : Dict) :
    ∀ (b : Dict) (k : String), lookupK o k = none →
      lookupK (deep_merge b o) k = lookupK b k := by
  induction o with
  | nil =>
    intro b k _
    simp [deep_merge_nil]
  | cons p rest ih =>
    obtain ⟨k0, v0⟩ := p
    intro b k h
    have h0 : ¬(k0 = k) := by
      intro he
      simp [lookupK, he] at h
    have h1 : lookupK rest k = none := by simpa [lookupK, h0] using h
    rw [deep_merge_cons, ih _ k h1]
    exact lookupK_setKey_ne b k0 k _ (fun he => h0 he.symm)

theorem lookupK_foldl_absent (docs : List Dict) :
    ∀ (acc : Dict) (k : String), (∀ d ∈ docs, lookupK d k = none) →
      lookupK (docs.foldl deep_merge acc) k = lookupK acc k := by
  induction docs with
  | nil =>
    intro acc k _
    simp
  | cons d rest ih =>
    intro acc k h
    simp only [List.foldl_cons]
    rw [ih _ k (fun e he => h e (List.mem_cons_of_mem _ he))]
    exact lookupK_merge_of_overlay_absent d acc k (h d (List.mem_cons_self _ _))

theorem lookupK_merge_overlay_nonmap (o : Dict) (b : Dict) (k : String) (v : Val)
    (hnd : keysNodupB o = true) (hl : lookupK o k = some v) (hnm : nonMap v = true) :
    lookupK (deep_merge b o) k = some v := by
  rw [lookupK_merge_some o b k v hnd hl]
  cases v with
  | map m2 => simp [nonMap] at hnm
  | str s => simp
  | int n => simp
  | bool b0 => simp
  | null => simp
  | seq xs => simp

theorem foldl_later_include_wins (pre : List Dict) (d : Dict) (post : List Dict)
    (acc : Dict) (k : String) (v : Val) (hnd : keysNodupB d = true)
    (hl : lookupK d k = some v) (hnm : nonMap v = true)
    (habsent : ∀ e ∈ post, lookupK e k = none) :
    lookupK ((pre ++ d :: post).foldl deep_merge acc) k = some v := by
  rw [List.foldl_append]
  simp only [List.foldl_cons]
  rw [lookupK_foldl_absent post _ k habsent]
  exact lookupK_merge_overlay_nonmap d _ k v hnd hl hnm

theorem getPath_merge_overlay (segs : List String) :
    ∀ (o b : Dict) (v : Val), valWF (Val.map o) = true →
      getPath (Val.map o) segs = some v → nonMap v = true →
      getPath (Val.map (deep_merge b o)) segs = some v := by
  induction segs with
  | nil =>
    intro o b v _ hv hnm
    have : v = Val.map o := by simpa [getPath] using hv.symm
    rw [this] at hnm
    simp [nonMap] at hnm
  | cons k rest ih =>
    intro o b v hwf hv hnm
    obtain ⟨hnd, hew⟩ := valWF_map_elim o hwf
    simp only [getPath] at hv
    cases hl : lookupK o k with
    | none =>
      rw [hl] at hv
      simp at hv
    | some w =>
      rw [hl] at hv
      have hmr := lookupK_merge_some o b k w hnd hl
      cases w with
      | map m2 =>
        cases hbk : lookupK b k with
        | some u =>
          cases u with
          | map m1 =>
            rw [hbk] at hmr
            cases rest with
            | nil =>
              have : v = Val.map m2 := by simpa [getPath] using hv.symm
              rw [this] at hnm
              simp [nonMap] at hnm
            | cons r rs =>
              have hw2 : valWF (Val.map m2) = true := entriesWF_lookup o k _ hew hl
              have hrec := ih m2 m1 v hw2 hv hnm
              simp only [getPath, hmr]
              exact hrec
          | str s =>
            rw [hbk] at hmr
            simp only [getPath, hmr]
            exact hv
          | int n =>
            rw [hbk] at hmr
            simp only [getPath, hmr]
            exact hv
          | bool b0 =>
            rw [hbk] at hmr
            simp only [getPath, hmr]
            exact hv
          | null =>
            rw [hbk] at hmr
            simp only [getPath, hmr]
            exact hv
          | seq xs =>
            rw [hbk] at hmr
            simp only [getPath, hmr]
            exact hv
        | none =>
          rw [hbk] at hmr
          simp only [getPath, hmr]
          exact hv
      | str s =>
        simp only [getPath, hmr]
        exact hv
      | int n =>
        simp only [getPath, hmr]
        exact hv
      | bool b0 =>
        simp only [getPath, hmr]
        exact hv
      | null =>
        simp only [getPath, hmr]
        exact hv
      | seq xs =>
        simp only [getPath, hmr]
        exact hv

theorem loadIncludes_eq_docs (fs : FS) (fuel : Nat) (dir : String) :
    ∀ (incs : List Val) (stack : List String) (env : Env) (base : Dict),
      loadIncludes fs fuel dir incs stack env base =
        match loadIncludeDocs fs fuel dir incs stack env with
        | none => none
        | some (Except.error e) => some (Except.error e)
        | some (Except.ok (docs, env1)) =>
          some (Except.ok (docs.foldl deep_merge base, env1)) := by
  intro incs
  induction incs with
  | nil =>
    intro stack env base
    simp [loadIncludes, loadIncludeDocs]
  | cons v rest ih =>
    intro stack env base
    cases v with
    | str rel =>
      simp only [loadIncludes, loadIncludeDocs]
      cases hl : load_config fs fuel (slashJoin dir rel) none stack env with
      | none => simp
      | some r =>
        cases r with
        | error e => simp
        | ok pr =>
          obtain ⟨included, env1⟩ := pr
          simp only []
          rw [ih stack env1 (deep_merge base included)]
          cases hd : loadIncludeDocs fs fuel dir rest stack env1 with
          | none => simp
          | some r2 =>
            cases r2 with
            | error e => simp
            | ok pr2 =>
              obtain ⟨docs, env2⟩ := pr2
              simp
    | int n => simp [loadIncludes, loadIncludeDocs]
    | bool b0 => simp [loadIncludes, loadIncludeDocs]
    | null => simp [loadIncludes, loadIncludeDocs]
    | seq xs => simp [loadIncludes, loadIncludeDocs]
    | map m => simp [loadIncludes, loadIncludeDocs]

theorem load_config_include_unfold (fs : FS) (fuel : Nat) (p : String)
    (req : Option (List String)) (s : List String) (env : Env) (config0 : Dict)
    (incs : List Val) (docs : List Dict) (env1 : Env)
    (hfs : fsGet fs p = some (FileData.parsed (some (Val.map config0))))
    (hnc : resolvePath p ∉ s)
    (hinc : containsK config0 "loaden_include" = true)
    (hit : iterValues ((lookupK config0 "loaden_include").getD Val.null) = Except.ok incs)
    (hdocs : loadIncludeDocs fs fuel (parentDir p) incs (s ++ [resolvePath p]) env =
      some (Except.ok (docs, env1))) :
    load_config fs (fuel + 1) p req s env =
      some (rootPostProcess
        (deep_merge (docs.foldl deep_merge []) (removeKey config0 "loaden_include"))
        p req (removeFirst (s ++ [resolvePath p]) (resolvePath p)) env1) := by
  simp only [load_config, hfs, if_neg hnc, hinc, if_pos, hit,
    loadIncludes_eq_docs fs fuel (parentDir p), hdocs]

/-- C1: include resolution and merge precedence.
(1) When a file's document carries the include directive, the load resolves
the listed includes in order relative to the directory of the file, folds
the loaded documents left-to-right with the merger starting from the empty
document, and merges that accumulated base underneath the current file's own
keys, the include key removed.
(2) The include loop of the source is exactly that collect-then-fold.
(3) In the fold, a key defined with a non-mapping value by a later include
overrides the same key from every earlier include.
(4) In the final merge, a value the overlay (the current file) defines at
any nesting depth, if it is not itself a mapping, survives into the result —
the current file's own value takes precedence over every included value. -/
theorem claim_C1 :
    (∀ (fs : FS) (fuel : Nat) (p : String) (req : Option (List String)) (s : List String)
        (env : Env) (config0 : Dict) (incs : List Val) (docs : List Dict) (env1 : Env),
      fsGet fs p = some (FileData.parsed (some (Val.map config0))) →
      resolvePath p ∉ s →
      containsK config0 "loaden_include" = true →
      iterValues ((lookupK config0 "loaden_include").getD Val.null) = Except.ok incs →
      loadIncludeDocs fs fuel (parentDir p) incs (s ++ [resolvePath p]) env =
        some (Except.ok (docs, env1)) →
      load_config fs (fuel + 1) p req s env =
        some (rootPostProcess
          (deep_merge (docs.foldl deep_merge []) (removeKey config0 "loaden_include"))
          p req (removeFirst (s ++ [resolvePath p]) (resolvePath p)) env1)) ∧
    (∀ (fs : FS) (fuel : Nat) (dir : String) (incs : List Val) (stack : List String)
        (env : Env) (base : Dict),
      loadIncludes fs fuel dir incs stack env base =
        match loadIncludeDocs fs fuel dir incs stack env with
        | none => none
        | some (Except.error e) => some (Except.error e)
        | some (Except.ok (docs, env1)) =>
          some (Except.ok (docs.foldl deep_merge base, env1))) ∧
    (∀ (pre : List Dict) (d : Dict) (post : List Dict) (acc : Dict) (k : String) (v : Val),
      keysNodupB d = true → lookupK d k = some v → nonMap v = true →
      (∀ e ∈ post, lookupK e k = none) →
      lookupK ((pre ++ d :: post).foldl deep_merge acc) k = some v) ∧
    (∀ (segs : List String) (o b : Dict) (v : Val),
      valWF (Val.map o) = true → getPath (Val.map o) segs = some v → nonMap v = true →
      getPath (Val.map (deep_merge b o)) segs = some v) :=
  ⟨load_config_include_unfold,
   fun fs fuel dir => loadIncludes_eq_docs fs fuel dir,
   foldl_later_include_wins,
   getPath_merge_overlay⟩

theorem claim_C1_witness :
    (load_config fsMulti 2 "/t/main.yaml" none [] [] =
      some (rootPostProcess
        (deep_merge
          ([[("a", Val.int 1), ("b", Val.str "first")],
            [("b", Val.str "second"), ("c", Val.int 3)]].foldl deep_merge [])
          (removeKey
            [("loaden_include", Val.seq [Val.str "first.yaml", Val.str "second.yaml"]),
             ("d", Val.int 4)] "loaden_include"))
        "/t/main.yaml" none
        (removeFirst ([] ++ [resolvePath "/t/main.yaml"]) (resolvePath "/t/main.yaml")) [])) ∧
    (lookupK (([[("a", Val.int 1), ("b", Val.str "first")]] ++
        [("b", Val.str "second"), ("c", Val.int 3)] :: []).foldl deep_merge []) "b" =
      some (Val.str "second")) ∧
    (getPath (Val.map (deep_merge [("k", Val.map [("x", Val.str "base")])]
        [("k", Val.map [("x", Val.str "main")])])) ["k", "x"] = some (Val.str "main")) := by
  refine ⟨?_, ?_, ?_⟩
  · exact claim_C1.1 fsMulti 1 "/t/main.yaml" none [] []
      [("loaden_include", Val.seq [Val.str "first.yaml", Val.str "second.yaml"]), ("d", Val.int 4)]
      [Val.str "first.yaml", Val.str "second.yaml"]
      [[("a", Val.int 1), ("b", Val.str "first")], [("b", Val.str "second"), ("c", Val.int 3)]]
      [] (by rfl) (by simp) (by rfl) (by rfl)
      (by simp [loadIncludeDocs, load_config, fsGet, rootPostProcess, containsK, lookupK,
        removeFirst, resolvePath,
        show parentDir "/t/main.yaml" = "/t" from rfl,
        show slashJoin "/t" "first.yaml" = "/t/first.yaml" from rfl,
        show slashJoin "/t" "second.yaml" = "/t/second.yaml" from rfl])
  · exact claim_C1.2.2.1 [[("a", Val.int 1), ("b", Val.str "first")]]
      [("b", Val.str "second"), ("c", Val.int 3)] [] [] "b" (Val.str "second")
      (by rfl) (by rfl) (by rfl) (by simp)
  · exact claim_C1.2.2.2 ["k", "x"] [("k", Val.map [("x", Val.str "main")])]
      [("k", Val.map [("x", Val.str "base")])] (Val.str "main")
      (by simp [valWF, entriesWF, keysNodupB, containsK, lookupK]) (by rfl) (by rfl)

theorem claim_C9_witness :
    keysNodupB [("a", Val.int 1), ("b", Val.map [("c", Val.int 2)])] = true ∧
    (deep_merge [("a", Val.int 1), ("b", Val.map [("c", Val.int 2)])] [] =
        [("a", Val.int 1), ("b", Val.map [("c", Val.int 2)])] ∧
      deep_merge [] [("a", Val.int 1), ("b", Val.map [("c", Val.int 2)])] =
        [("a", Val.int 1), ("b", Val.map [("c", Val.int 2)])]) :=
  ⟨by decide, claim_C9 [("a", Val.int 1), ("b", Val.map [("c", Val.int 2)])] (by decide)⟩

theorem lookupK_removeKey_self (d : Dict) (k : String) :
    lookupK (removeKey d k) k = none := by
  induction d with
  | nil => simp [removeKey, lookupK]
  | cons p rest ih =>
    obtain ⟨k0, v0⟩ := p
    by_cases h : k0 = k
    · simp [removeKey, h] at ih ⊢
      simpa [removeKey] using ih
    · simp [removeKey, lookupK, h] at ih ⊢
      simpa [removeKey] using ih

theorem rootPostProcess_ok_dict (c : Dict) (p : String) (req : Option (List String))
    (sa : List String) (env : Env) (d : Dict) (e : Env)
    (h : rootPostProcess c p req sa env = Except.ok (d, e)) : d = c := by
  unfold rootPostProcess at h
  split at h
  · split at h
    · split at h
      · cases hv : validateRequiredKeys c _ p with
        | error er => rw [hv] at h; simp [Except.map] at h
        | ok u => rw [hv] at h; simp [Except.map] at h; exact h.1.symm
      · simp at h; exact h.1.symm
    · simp at h
    · split at h
      · cases hv : validateRequiredKeys c _ p with
        | error er => rw [hv] at h; simp [Except.map] at h
        | ok u => rw [hv] at h; simp [Except.map] at h; exact h.1.symm
      · simp at h; exact h.1.symm
  · simp at h; exact h.1.symm


theorem no_top_include_aux : ∀ fuel : Nat,
    (∀ fs p req s env d env',
      load_config fs fuel p req s env = some (Except.ok (d, env')) →
      lookupK d "loaden_include" = none) ∧
    (∀ fs dir incs stack env base bc env1,
      loadIncludes fs fuel dir incs stack env base = some (Except.ok (bc, env1)) →
      lookupK base "loaden_include" = none → lookupK bc "loaden_include" = none) := by
  intro fuel
  induction fuel with
  | zero =>
    constructor
    · intro fs p req s env d env' h
      simp [load_config] at h
    · intro fs dir incs stack env base bc env1 h hb
      cases incs with
      | nil =>
        simp [loadIncludes] at h
        rw [← h.1]
        exact hb
      | cons v rest =>
        cases v <;> simp [loadIncludes, load_config] at h
  | succ f ihf =>
    have hP : ∀ fs p req s env d env',
        load_config fs (f + 1) p req s env = some (Except.ok (d, env')) →
        lookupK d "loaden_include" = none := by
      intro fs p req s env d env' h
      simp only [load_config] at h
      cases hfs : fsGet fs p with
      | none => simp [hfs] at h
      | some fd =>
        by_cases hmem : resolvePath p ∈ s
        · simp [hfs, hmem] at h
        · cases fd with
          | bad => simp [hfs, hmem] at h
          | parsed pv =>
            cases pv with
            | none =>
              simp only [hfs] at h
              rw [if_neg hmem] at h
              have hd := rootPostProcess_ok_dict _ _ _ _ _ _ _ (Option.some.inj h)
              rw [hd]
              rfl
            | some v =>
              cases v with
              | map config0 =>
                simp only [hfs] at h
                rw [if_neg hmem] at h
                by_cases hinc : containsK config0 "loaden_include" = true
                · rw [if_pos hinc] at h
                  cases hit : iterValues ((lookupK config0 "loaden_include").getD Val.null) with
                  | error e =>
                    simp [hit] at h
                  | ok incs =>
                    simp only [hit] at h
                    cases hli : loadIncludes fs f (parentDir p) incs (s ++ [resolvePath p]) env [] with
                    | none =>
                      simp [hli] at h
                    | some r =>
                      simp only [hli] at h
                      cases r with
                      | error e => simp at h
                      | ok pr =>
                        obtain ⟨bc, env1⟩ := pr
                        have hd := rootPostProcess_ok_dict _ _ _ _ _ _ _ (Option.some.inj h)
                        have hbc := ihf.2 fs (parentDir p) incs (s ++ [resolvePath p]) env [] bc env1 hli (by rfl)
                        rw [hd, lookupK_merge_of_overlay_absent _ _ _ (lookupK_removeKey_self config0 _)]
                        exact hbc
                · rw [if_neg hinc] at h
                  have hd := rootPostProcess_ok_dict _ _ _ _ _ _ _ (Option.some.inj h)
                  rw [hd]
                  exact lookupK_none_of_not_contains config0 _ (by simpa using hinc)
              | str s0 => simp [hfs, hmem] at h
              | int n => simp [hfs, hmem] at h
              | bool b0 => simp [hfs, hmem] at h
              | null => simp [hfs, hmem] at h
              | seq xs => simp [hfs, hmem] at h
    refine ⟨hP, ?_⟩
    intro fs dir incs
    induction incs with
    | nil =>
      intro stack env base bc env1 h hb
      simp [loadIncludes] at h
      rw [← h.1]
      exact hb
    | cons v rest ihr =>
      intro stack env base bc env1 h hb
      cases v with
      | str rel =>
        simp only [loadIncludes] at h
        cases hl : load_config fs (f + 1) (slashJoin dir rel) none stack env with
        | none =>
          simp [hl] at h
        | some r =>
          simp only [hl] at h
          cases r with
          | error e => simp at h
          | ok pr =>
            obtain ⟨included, env2⟩ := pr
            have hincl := hP fs (slashJoin dir rel) none stack env included env2 hl
            exact ihr stack env2 (deep_merge base included) bc env1 h
              (by rw [lookupK_merge_of_overlay_absent _ _ _ hincl]; exact hb)
      | int n => simp [loadIncludes] at h
      | bool b0 => simp [loadIncludes] at h
      | null => simp [loadIncludes] at h
      | seq xs => simp [loadIncludes] at h
      | map m => simp [loadIncludes] at h

/-- C5 (amended): the include directive key never appears at the top level of
a document returned by load — the loader pops it from every file and merging
cannot reintroduce an absent top-level key.  The original any-depth claim is
false: only the top-level key is removed, and the counterexample exhibits a
returned document with a nested `loaden_include` mapping key. -/
theorem claim_C5 (fs : FS) (fuel : Nat) (p : String) (req : Option (List String))
    (s : List String) (env : Env) (d : Dict) (env' : Env)
    (h : load_config fs fuel p req s env = some (Except.ok (d, env'))) :
    lookupK d "loaden_include" = none :=
  (no_top_include_aux fuel).1 fs p req s env d env' h

theorem claim_C5_witness :
    load_config fsNested 1 "/t/c.yaml" none [] [] =
      some (Except.ok ([("outer", Val.map [("loaden_include", Val.str "x")])], [])) ∧
    lookupK [("outer", Val.map [("loaden_include", Val.str "x")])] "loaden_include" = none := by
  have hload : load_config fsNested 1 "/t/c.yaml" none [] [] =
      some (Except.ok ([("outer", Val.map [("loaden_include", Val.str "x")])], [])) := by
    simp [load_config, fsNested, fsGet, rootPostProcess, containsK, lookupK, removeFirst,
      resolvePath]
  exact ⟨hload, claim_C5 fsNested 1 "/t/c.yaml" none [] []
    [("outer", Val.map [("loaden_include", Val.str "x")])] [] hload⟩

/-- The claim as frozen is false on the code: this load succeeds and returns
a document in which the include directive key occurs inside a nested
mapping. -/
theorem claim_C5_counterexample :
    load_config fsNested 1 "/t/c.yaml" none [] [] =
      some (Except.ok ([("outer", Val.map [("loaden_include", Val.str "x")])], [])) ∧
    valHasKey (Val.map [("outer", Val.map [("loaden_include", Val.str "x")])])
      "loaden_include" = true := by
  constructor
  · simp [load_config, fsNested, fsGet, rootPostProcess, containsK, lookupK, removeFirst,
      resolvePath]
  · simp [valHasKey, entriesHaveKey, containsK, lookupK]

theorem missingOf_foldl (config : Dict) (required : List String) :
    ∀ acc : List String,
      required.foldl
        (fun acc key_path =>
          if walkOk (Val.map config) (splitOnChar dotChar key_path) then acc
          else acc ++ [key_path]) acc =
      acc ++ required.filter
        (fun key_path => !walkOk (Val.map config) (splitOnChar dotChar key_path)) := by
  induction required with
  | nil => intro acc; simp
  | cons kp rest ih =>
    intro acc
    by_cases h : walkOk (Val.map config) (splitOnChar dotChar kp) = true
    · simp [List.foldl_cons, h, ih]
    · have hb : walkOk (Val.map config) (splitOnChar dotChar kp) = false := by
        simpa using h
      simp [List.foldl_cons, hb, ih]

theorem missingOf_eq_filter (config : Dict) (required : List String) :
    missingOf config required =
      required.filter
        (fun key_path => !walkOk (Val.map config) (splitOnChar dotChar key_path)) := by
  rw [missingOf]
  simpa using missingOf_foldl config required []

theorem walkOk_nonMap (v : Val) (p : String) (rest : List String)
    (h : nonMap v = true) : walkOk v (p :: rest) = false := by
  cases v <;> simp_all [walkOk, nonMap]

theorem validateRequiredKeys_spec (config : Dict) (required : List String) (path : String) :
    validateRequiredKeys config required path =
      if missingOf config required = [] then Except.ok ()
      else Except.error (LoadErr.missingRequiredKeys path (missingOf config required)) := by
  rw [validateRequiredKeys]
  by_cases h : missingOf config required = []
  · simp [h]
  · simp [h, List.isEmpty_iff]

theorem walkOk_iff_present : ∀ (segs : List String) (v : Val),
    walkOk v segs = true ↔ PresentByMembership v segs := by
  intro segs
  induction segs with
  | nil =>
    intro v
    simp [walkOk]
    exact PresentByMembership.nil v
  | cons k rest ih =>
    intro v
    cases v with
    | map m =>
      constructor
      · intro h
        cases hl : lookupK m k with
        | none => simp [walkOk, hl] at h
        | some w =>
          simp only [walkOk, hl] at h
          exact PresentByMembership.cons m k w rest hl ((ih w).mp h)
      · intro h
        cases h with
        | cons _ _ w _ hl hp =>
          simp only [walkOk, hl]
          exact (ih w).mpr hp
    | str s =>
      constructor
      · intro h; simp [walkOk] at h
      · intro h; cases h
    | int n =>
      constructor
      · intro h; simp [walkOk] at h
      · intro h; cases h
    | bool b0 =>
      constructor
      · intro h; simp [walkOk] at h
      · intro h; cases h
    | null =>
      constructor
      · intro h; simp [walkOk] at h
      · intro h; cases h
    | seq xs =>
      constructor
      · intro h; simp [walkOk] at h
      · intro h; cases h


theorem iterValues_error (v : Val) (e : LoadErr) (h : iterValues v = Except.error e) :
    e = LoadErr.typeErr := by
  cases v <;> simp [iterValues] at h <;> exact h.symm

theorem rootPostProcess_no_missing (c : Dict) (p : String) (req : Option (List String))
    (sa : List String) (env : Env) (hreq : req = none ∨ req = some []) :
    ∀ pe ms, rootPostProcess c p req sa env ≠
      Except.error (LoadErr.missingRequiredKeys pe ms) := by
  intro pe ms h
  rcases hreq with h0 | h0 <;> subst h0 <;> unfold rootPostProcess at h
  · split at h
    · split at h
      · simp at h
      · simp at h
      · simp at h
    · simp at h
  · split at h
    · split at h
      · simp at h
      · simp at h
      · simp at h
    · simp at h

theorem no_missing_error_aux : ∀ fuel : Nat,
    (∀ fs p req s env, (req = none ∨ req = some ([] : List String)) →
      ∀ pe ms, load_config fs fuel p req s env ≠
        some (Except.error (LoadErr.missingRequiredKeys pe ms))) ∧
    (∀ fs dir incs stack env base pe ms,
      loadIncludes fs fuel dir incs stack env base ≠
        some (Except.error (LoadErr.missingRequiredKeys pe ms))) := by
  intro fuel
  induction fuel with
  | zero =>
    constructor
    · intro fs p req s env _ pe ms h
      simp [load_config] at h
    · intro fs dir incs stack env base pe ms h
      cases incs with
      | nil => simp [loadIncludes] at h
      | cons v rest => cases v <;> simp [loadIncludes, load_config] at h
  | succ f ihf =>
    have hP : ∀ fs p req s env, (req = none ∨ req = some ([] : List String)) →
        ∀ pe ms, load_config fs (f + 1) p req s env ≠
          some (Except.error (LoadErr.missingRequiredKeys pe ms)) := by
      intro fs p req s env hreq pe ms h
      simp only [load_config] at h
      cases hfs : fsGet fs p with
      | none => simp [hfs] at h
      | some fd =>
        by_cases hmem : resolvePath p ∈ s
        · simp [hfs, hmem] at h
        · cases fd with
          | bad => simp [hfs, hmem] at h
          | parsed pv =>
            cases pv with
            | none =>
              simp only [hfs] at h
              rw [if_neg hmem] at h
              exact rootPostProcess_no_missing _ _ _ _ _ hreq pe ms (Option.some.inj h)
            | some v =>
              cases v with
              | map config0 =>
                simp only [hfs] at h
                rw [if_neg hmem] at h
                by_cases hinc : containsK config0 "loaden_include" = true
                · rw [if_pos hinc] at h
                  cases hit : iterValues ((lookupK config0 "loaden_include").getD Val.null) with
                  | error e =>
                    have het := iterValues_error _ _ hit
                    simp [hit] at h
                    rw [het] at h
                    simp at h
                  | ok incs =>
                    simp only [hit] at h
                    cases hli : loadIncludes fs f (parentDir p) incs (s ++ [resolvePath p]) env [] with
                    | none => simp [hli] at h
                    | some r =>
                      simp only [hli] at h
                      cases r with
                      | error e =>
                        simp only [] at h
                        have he := Option.some.inj h
                        have := Except.error.inj he
                        subst this
                        exact ihf.2 fs (parentDir p) incs (s ++ [resolvePath p]) env [] pe ms hli
                      | ok pr =>
                        obtain ⟨bc, env1⟩ := pr
                        exact rootPostProcess_no_missing _ _ _ _ _ hreq pe ms (Option.some.inj h)
                · rw [if_neg hinc] at h
                  exact rootPostProcess_no_missing _ _ _ _ _ hreq pe ms (Option.some.inj h)
              | str s0 => simp [hfs, hmem] at h
              | int n => simp [hfs, hmem] at h
              | bool b0 => simp [hfs, hmem] at h
              | null => simp [hfs, hmem] at h
              | seq xs => simp [hfs, hmem] at h
    refine ⟨hP, ?_⟩
    intro fs dir incs
    induction incs with
    | nil =>
      intro stack env base pe ms h
      simp [loadIncludes] at h
    | cons v rest ihr =>
      intro stack env base pe ms h
      cases v with
      | str rel =>
        simp only [loadIncludes] at h
        cases hl : load_config fs (f + 1) (slashJoin dir rel) none stack env with
        | none => simp [hl] at h
        | some r =>
          simp only [hl] at h
          cases r with
          | error e =>
            simp only [] at h
            have he := Option.some.inj h
            have := Except.error.inj he
            subst this
            exact hP fs (slashJoin dir rel) none stack env (Or.inl rfl) pe ms hl
          | ok pr =>
            obtain ⟨included, env2⟩ := pr
            exact ihr stack env2 (deep_merge base included) pe ms h
      | int n => simp [loadIncludes] at h
      | bool b0 => simp [loadIncludes] at h
      | null => simp [loadIncludes] at h
      | seq xs => simp [loadIncludes] at h
      | map m => simp [loadIncludes] at h

/-- C7: the validator walks each dot-separated path from the root; a path
through a non-mapping value is reported missing (never a crash, the walk is a
total function); all failing paths are collected (the accumulated list is the
input-order filter of the failing paths, not a first-failure cut); the raise
carries exactly that list; and a load with an unset or empty required-key
list never fails with MissingRequiredKeys, whatever the documents contain. -/
theorem claim_C7 :
    (∀ (config : Dict) (required : List String),
      missingOf config required =
        required.filter
          (fun key_path => !walkOk (Val.map config) (splitOnChar dotChar key_path))) ∧
    (∀ (config : Dict) (required : List String) (path : String),
      validateRequiredKeys config required path =
        if missingOf config required = [] then Except.ok ()
        else Except.error (LoadErr.missingRequiredKeys path (missingOf config required))) ∧
    (∀ (v : Val) (p : String) (rest : List String),
      nonMap v = true → walkOk v (p :: rest) = false) ∧
    (∀ (fs : FS) (fuel : Nat) (p : String) (req : Option (List String))
        (s : List String) (env : Env),
      (req = none ∨ req = some []) →
      ∀ pe ms, load_config fs fuel p req s env ≠
        some (Except.error (LoadErr.missingRequiredKeys pe ms))) :=
  ⟨missingOf_eq_filter, validateRequiredKeys_spec, walkOk_nonMap,
   fun fs fuel p req s env hreq => (no_missing_error_aux fuel).1 fs p req s env hreq⟩

theorem claim_C7_witness :
    (nonMap (Val.str "not_a_dict") = true ∧
      walkOk (Val.str "not_a_dict") ["host"] = false) ∧
    (∀ pe ms, load_config fsMulti 2 "/t/main.yaml" none [] [] ≠
      some (Except.error (LoadErr.missingRequiredKeys pe ms))) :=
  ⟨⟨by rfl, claim_C7.2.2.1 (Val.str "not_a_dict") "host" [] (by rfl)⟩,
   claim_C7.2.2.2 fsMulti 2 "/t/main.yaml" none [] [] (Or.inl rfl)⟩

/-- C10: presence of a required path is decided solely by key membership in a
mapping at each segment — the walk succeeds exactly when the membership-only
predicate holds, whatever the values along the way are; in particular a path
whose final value is null is present, and a single-path validation passes
exactly when the membership walk succeeds. -/
theorem claim_C10 :
    (∀ (segs : List String) (v : Val),
      walkOk v segs = true ↔ PresentByMembership v segs) ∧
    (∀ (m : Dict) (k : String), lookupK m k = some Val.null →
      PresentByMembership (Val.map m) [k]) ∧
    (∀ (config : Dict) (kp : String),
      missingOf config [kp] = [] ↔
        PresentByMembership (Val.map config) (splitOnChar dotChar kp)) := by
  refine ⟨walkOk_iff_present, ?_, ?_⟩
  · intro m k h
    exact PresentByMembership.cons m k Val.null [] h (PresentByMembership.nil Val.null)
  · intro config kp
    rw [missingOf_eq_filter]
    by_cases h : walkOk (Val.map config) (splitOnChar dotChar kp) = true
    · simp [List.filter, h]
      exact (walkOk_iff_present _ _).mp h
    · have hb : walkOk (Val.map config) (splitOnChar dotChar kp) = false := by simpa using h
      simp [List.filter, hb]
      intro hp
      exact h ((walkOk_iff_present _ _).mpr hp)

theorem claim_C10_witness :
    lookupK [("a", Val.null)] "a" = some Val.null ∧
    PresentByMembership (Val.map [("a", Val.null)]) ["a"] :=
  ⟨by rfl, claim_C10.2.1 [("a", Val.null)] "a" (by rfl)⟩

theorem fsGet_some_mem (fs : FS) (p : String) (fd : FileData)
    (h : fsGet fs p = some fd) : p ∈ fs.map Prod.fst := by
  induction fs with
  | nil => simp [fsGet] at h
  | cons e rest ih =>
    obtain ⟨p0, fd0⟩ := e
    by_cases hp : p0 = p
    · simp [hp]
    · simp only [fsGet, if_neg hp] at h
      simp [ih h]

theorem memB_append (k : String) (s t : List String) :
    memB k (s ++ t) = (memB k s || memB k t) := by
  induction s with
  | nil => simp [memB]
  | cons y rest ih => by_cases h : y = k <;> simp [memB, h, ih]

theorem memB_iff_mem (k : String) (l : List String) : memB k l = true ↔ k ∈ l := by
  induction l with
  | nil => simp [memB]
  | cons y rest ih =>
    by_cases h : y = k
    · simp [memB, h]
    · simp [memB, h, ih]
      exact fun he => absurd he.symm h

theorem filter_stack_mono (s : List String) (p : String) :
    ∀ keys : List String,
      (keys.filter (fun k => !(memB k (s ++ [p])))).length ≤
        (keys.filter (fun k => !(memB k s))).length := by
  intro keys
  induction keys with
  | nil => simp
  | cons k rest ih =>
    simp only [List.filter_cons]
    by_cases h2 : memB k s = true
    · have h1 : memB k (s ++ [p]) = true := by
        rw [memB_append, h2]
        simp
      simp only [h1, h2, Bool.not_true]
      simp only [if_neg (by simp : ¬(false = true))]
      exact ih
    · have h2f : memB k s = false := by simpa using h2
      by_cases h1 : memB k (s ++ [p]) = true
      · simp only [h1, h2f, Bool.not_true, Bool.not_false]
        simp only [if_neg (by simp : ¬(false = true)), if_pos rfl]
        exact Nat.le_succ_of_le ih
      · have h1f : memB k (s ++ [p]) = false := by simpa using h1
        simp only [h1f, h2f, Bool.not_false, if_pos rfl]
        simpa using ih

theorem filter_stack_strict (s : List String) (p : String) (hnot : p ∉ s) :
    ∀ keys : List String, p ∈ keys →
      (keys.filter (fun k => !(memB k (s ++ [p])))).length <
        (keys.filter (fun k => !(memB k s))).length := by
  intro keys
  induction keys with
  | nil =>
    intro h
    cases h
  | cons k rest ih =>
    intro hmem
    simp only [List.filter_cons]
    by_cases hk : k = p
    · subst hk
      have h1 : memB k (s ++ [k]) = true := by
        rw [memB_append]
        simp [memB]
      have h2 : memB k s = false := by
        by_contra hc
        have hc2 : memB k s = true := by simpa using hc
        exact hnot ((memB_iff_mem k s).mp hc2)
      simp only [h1, h2, Bool.not_true, Bool.not_false]
      simp only [if_neg (by simp : ¬(false = true)), if_pos rfl]
      exact Nat.lt_succ_of_le (filter_stack_mono s k rest)
    · have hmem2 : p ∈ rest := by
        cases List.mem_cons.mp hmem with
        | inl he => exact absurd he.symm hk
        | inr hm => exact hm
      have hsame : memB k (s ++ [p]) = memB k s := by
        rw [memB_append]
        have hone : memB k [p] = false := by
          simp [memB]
          exact fun he => hk he.symm
        simp [hone]
      by_cases h2 : memB k s = true
      · simp only [hsame, h2, Bool.not_true]
        simp only [if_neg (by simp : ¬(false = true))]
        exact ih hmem2
      · have h2f : memB k s = false := by simpa using h2
        simp only [hsame, h2f, Bool.not_false, if_pos rfl]
        simpa using Nat.succ_lt_succ (ih hmem2)

theorem remainingCount_lt (fs : FS) (s : List String) (p : String)
    (hmem : p ∈ fs.map Prod.fst) (hnot : p ∉ s) :
    remainingCount fs (s ++ [p]) < remainingCount fs s :=
  filter_stack_strict s p hnot (fs.map Prod.fst) hmem


theorem load_config_cycle_hit (fs : FS) (fuel : Nat) (p : String)
    (req : Option (List String)) (s : List String) (env : Env) (fd : FileData)
    (hfs : fsGet fs p = some fd) (hmem : resolvePath p ∈ s) :
    load_config fs (fuel + 1) p req s env =
      some (Except.error (LoadErr.circularInclude (s ++ [resolvePath p]))) := by
  simp only [load_config, hfs, if_pos hmem]

theorem load_terminates_aux : ∀ fuel : Nat,
    (∀ fs p req s env, remainingCount fs s < fuel →
      load_config fs fuel p req s env ≠ none) ∧
    (∀ fs dir incs stack env base, remainingCount fs stack < fuel →
      loadIncludes fs fuel dir incs stack env base ≠ none) := by
  intro fuel
  induction fuel with
  | zero =>
    constructor
    · intro fs p req s env hc
      exact absurd hc (Nat.not_lt_zero _)
    · intro fs dir incs stack env base hc
      exact absurd hc (Nat.not_lt_zero _)
  | succ f ihf =>
    have hP : ∀ fs p req s env, remainingCount fs s < f + 1 →
        load_config fs (f + 1) p req s env ≠ none := by
      intro fs p req s env hc h
      simp only [load_config] at h
      cases hfs : fsGet fs p with
      | none => simp [hfs] at h
      | some fd =>
        by_cases hmem : resolvePath p ∈ s
        · simp [hfs, hmem] at h
        · cases fd with
          | bad => simp [hfs, hmem] at h
          | parsed pv =>
            cases pv with
            | none => simp [hfs, hmem] at h
            | some v =>
              cases v with
              | map config0 =>
                simp only [hfs] at h
                rw [if_neg hmem] at h
                by_cases hinc : containsK config0 "loaden_include" = true
                · rw [if_pos hinc] at h
                  cases hit : iterValues ((lookupK config0 "loaden_include").getD Val.null) with
                  | error e => simp [hit] at h
                  | ok incs =>
                    simp only [hit] at h
                    have hkey : p ∈ fs.map Prod.fst := fsGet_some_mem fs p _ hfs
                    have hmemr : resolvePath p ∉ s := hmem
                    have hlt : remainingCount fs (s ++ [resolvePath p]) < f := by
                      have hstep := remainingCount_lt fs s (resolvePath p) hkey hmemr
                      omega
                    have hne := ihf.2 fs (parentDir p) incs (s ++ [resolvePath p]) env [] hlt
                    cases hli : loadIncludes fs f (parentDir p) incs (s ++ [resolvePath p]) env [] with
                    | none => exact hne hli
                    | some r =>
                      simp only [hli] at h
                      cases r with
                      | error e => simp at h
                      | ok pr =>
                        obtain ⟨bc, env1⟩ := pr
                        simp at h
                · rw [if_neg hinc] at h
                  simp at h
              | str s0 => simp [hfs, hmem] at h
              | int n => simp [hfs, hmem] at h
              | bool b0 => simp [hfs, hmem] at h
              | null => simp [hfs, hmem] at h
              | seq xs => simp [hfs, hmem] at h
    refine ⟨hP, ?_⟩
    intro fs dir incs
    induction incs with
    | nil =>
      intro stack env base hc h
      simp [loadIncludes] at h
    | cons v rest ihr =>
      intro stack env base hc h
      cases v with
      | str rel =>
        simp only [loadIncludes] at h
        cases hl : load_config fs (f + 1) (slashJoin dir rel) none stack env with
        | none => exact hP fs (slashJoin dir rel) none stack env hc hl
        | some r =>
          simp only [hl] at h
          cases r with
          | error e => simp at h
          | ok pr =>
            obtain ⟨included, env2⟩ := pr
            exact ihr stack env2 (deep_merge base included) hc h
      | int n => simp [loadIncludes] at h
      | bool b0 => simp [loadIncludes] at h
      | null => simp [loadIncludes] at h
      | seq xs => simp [loadIncludes] at h
      | map m => simp [loadIncludes] at h

/-- C2: cycle detection and termination.
(1) Whenever the canonical path of the file being loaded already appears in
its ancestor chain, the call fails at once with CircularInclude carrying the
full chain — the ancestor stack plus the repeated path, in traversal order.
(2) The load terminates rather than looping forever: any fuel bound
exceeding the number of filesystem paths not yet on the stack suffices, so
on a cyclic graph the traversal ends in the error of (1).
(3) On the three-file cycle a -> b -> c -> a the root load returns exactly
CircularInclude with the chain [a, b, c, a]. -/
theorem claim_C2 :
    (∀ (fs : FS) (fuel : Nat) (p : String) (req : Option (List String))
        (s : List String) (env : Env) (fd : FileData),
      fsGet fs p = some fd → resolvePath p ∈ s →
      load_config fs (fuel + 1) p req s env =
        some (Except.error (LoadErr.circularInclude (s ++ [resolvePath p])))) ∧
    (∀ (fs : FS) (fuel : Nat) (p : String) (req : Option (List String))
        (s : List String) (env : Env),
      remainingCount fs s < fuel → load_config fs fuel p req s env ≠ none) ∧
    (load_config fsCycle 4 "/t/a.yaml" none [] [] =
      some (Except.error (LoadErr.circularInclude
        ["/t/a.yaml", "/t/b.yaml", "/t/c.yaml", "/t/a.yaml"]))) := by
  refine ⟨load_config_cycle_hit, ?_, ?_⟩
  · intro fs fuel p req s env hc
    exact (load_terminates_aux fuel).1 fs p req s env hc
  · simp [load_config, loadIncludes, fsCycle, fsGet, rootPostProcess, deep_merge, setKey,
      containsK, lookupK, removeKey, removeFirst, resolvePath, iterValues,
      show parentDir "/t/a.yaml" = "/t" from rfl,
      show parentDir "/t/b.yaml" = "/t" from rfl,
      show parentDir "/t/c.yaml" = "/t" from rfl,
      show slashJoin "/t" "a.yaml" = "/t/a.yaml" from rfl,
      show slashJoin "/t" "b.yaml" = "/t/b.yaml" from rfl,
      show slashJoin "/t" "c.yaml" = "/t/c.yaml" from rfl]

theorem claim_C2_witness :
    (load_config fsCycle 1 "/t/a.yaml" none ["/t/a.yaml"] [] =
      some (Except.error (LoadErr.circularInclude ["/t/a.yaml", "/t/a.yaml"]))) ∧
    (load_config fsCycle 4 "/t/a.yaml" none [] [] ≠ none) :=
  ⟨claim_C2.1 fsCycle 0 "/t/a.yaml" none ["/t/a.yaml"] []
      (FileData.parsed (some (Val.map [("loaden_include", Val.str "b.yaml"), ("a", Val.int 1)])))
      (by rfl) (by simp [resolvePath]),
   claim_C2.2.1 fsCycle 4 "/t/a.yaml" none [] [] (by decide)⟩

theorem rootPostProcess_no_circular (c : Dict) (p : String) (req : Option (List String))
    (sa : List String) (env : Env) :
    ∀ ch, rootPostProcess c p req sa env ≠
      Except.error (LoadErr.circularInclude ch) := by
  intro ch h
  unfold rootPostProcess at h
  split at h
  · split at h
    · split at h
      · rw [validateRequiredKeys_spec] at h
        split at h
        · simp [Except.map] at h
        · simp [Except.map] at h
      · simp at h
    · simp at h
    · split at h
      · rw [validateRequiredKeys_spec] at h
        split at h
        · simp [Except.map] at h
        · simp [Except.map] at h
      · simp at h
  · simp at h

theorem childPaths_mem (fs : FS) (p : String) (config0 : Dict) (incs : List Val)
    (rel : String)
    (hfs : fsGet fs p = some (FileData.parsed (some (Val.map config0))))
    (hinc : containsK config0 "loaden_include" = true)
    (hit : iterValues ((lookupK config0 "loaden_include").getD Val.null) = Except.ok incs)
    (hrel : Val.str rel ∈ incs) :
    resolvePath (slashJoin (parentDir p) rel) ∈ childPaths fs p := by
  unfold childPaths
  rw [hfs]
  simp only [hinc, if_pos, hit]
  exact List.mem_filterMap.mpr ⟨Val.str rel, hrel, rfl⟩

theorem no_false_cycle (fs : FS) (rank : String → Nat)
    (hrank : ∀ p ∈ fs.map Prod.fst, ∀ q ∈ childPaths fs p, rank q < rank p) :
    ∀ fuel : Nat,
    (∀ p req s env, (∀ x ∈ s, rank (resolvePath p) < rank x) →
      ∀ c, load_config fs fuel p req s env ≠
        some (Except.error (LoadErr.circularInclude c))) ∧
    (∀ dir incs stack env base,
      (∀ rel, Val.str rel ∈ incs →
        ∀ x ∈ stack, rank (resolvePath (slashJoin dir rel)) < rank x) →
      ∀ c, loadIncludes fs fuel dir incs stack env base ≠
        some (Except.error (LoadErr.circularInclude c))) := by
  intro fuel
  induction fuel with
  | zero =>
    constructor
    · intro p req s env _ c h
      simp [load_config] at h
    · intro dir incs stack env base _ c h
      cases incs with
      | nil => simp [loadIncludes] at h
      | cons v rest => cases v <;> simp [loadIncludes, load_config] at h
  | succ f ihf =>
    have hP : ∀ p req s env, (∀ x ∈ s, rank (resolvePath p) < rank x) →
        ∀ c, load_config fs (f + 1) p req s env ≠
          some (Except.error (LoadErr.circularInclude c)) := by
      intro p req s env hinv c h
      simp only [load_config] at h
      cases hfs : fsGet fs p with
      | none => simp [hfs] at h
      | some fd =>
        by_cases hmem : resolvePath p ∈ s
        · exact absurd (hinv _ hmem) (Nat.lt_irrefl _)
        · cases fd with
          | bad => simp [hfs, hmem] at h
          | parsed pv =>
            cases pv with
            | none =>
              simp only [hfs] at h
              rw [if_neg hmem] at h
              exact rootPostProcess_no_circular _ _ _ _ _ c (Option.some.inj h)
            | some v =>
              cases v with
              | map config0 =>
                simp only [hfs] at h
                rw [if_neg hmem] at h
                by_cases hinc : containsK config0 "loaden_include" = true
                · rw [if_pos hinc] at h
                  cases hit : iterValues ((lookupK config0 "loaden_include").getD Val.null) with
                  | error e =>
                    have het := iterValues_error _ _ hit
                    simp [hit] at h
                    rw [het] at h
                    simp at h
                  | ok incs =>
                    simp only [hit] at h
                    have hkey : p ∈ fs.map Prod.fst := fsGet_some_mem fs p _ hfs
                    have hloop : ∀ rel, Val.str rel ∈ incs →
                        ∀ x ∈ (s ++ [resolvePath p]),
                          rank (resolvePath (slashJoin (parentDir p) rel)) < rank x := by
                      intro rel hrel x hx
                      have hchild : rank (resolvePath (slashJoin (parentDir p) rel)) < rank p :=
                        hrank p hkey _ (childPaths_mem fs p config0 incs rel hfs hinc hit hrel)
                      cases List.mem_append.mp hx with
                      | inl hxs => exact Nat.lt_trans hchild (hinv x hxs)
                      | inr hxp =>
                        have : x = resolvePath p := by simpa using hxp
                        rw [this]
                        exact hchild
                    cases hli : loadIncludes fs f (parentDir p) incs (s ++ [resolvePath p]) env [] with
                    | none => simp [hli] at h
                    | some r =>
                      simp only [hli] at h
                      cases r with
                      | error e =>
                        simp only [] at h
                        have he := Option.some.inj h
                        have he2 := Except.error.inj he
                        subst he2
                        exact ihf.2 (parentDir p) incs (s ++ [resolvePath p]) env [] hloop c hli
                      | ok pr =>
                        obtain ⟨bc, env1⟩ := pr
                        exact rootPostProcess_no_circular _ _ _ _ _ c (Option.some.inj h)
                · rw [if_neg hinc] at h
                  exact rootPostProcess_no_circular _ _ _ _ _ c (Option.some.inj h)
              | str s0 => simp [hfs, hmem] at h
              | int n => simp [hfs, hmem] at h
              | bool b0 => simp [hfs, hmem] at h
              | null => simp [hfs, hmem] at h
              | seq xs => simp [hfs, hmem] at h
    refine ⟨hP, ?_⟩
    intro dir incs
    induction incs with
    | nil =>
      intro stack env base _ c h
      simp [loadIncludes] at h
    | cons v rest ihr =>
      intro stack env base hloop c h
      cases v with
      | str rel =>
        simp only [loadIncludes] at h
        cases hl : load_config fs (f + 1) (slashJoin dir rel) none stack env with
        | none => simp [hl] at h
        | some r =>
          simp only [hl] at h
          cases r with
          | error e =>
            simp only [] at h
            have he := Option.some.inj h
            have he2 := Except.error.inj he
            subst he2
            exact hP (slashJoin dir rel) none stack env
              (hloop rel (List.mem_cons_self _ _)) c hl
          | ok pr =>
            obtain ⟨included, env2⟩ := pr
            exact ihr stack env2 (deep_merge base included)
              (fun rel2 hrel2 => hloop rel2 (List.mem_cons_of_mem _ hrel2)) c h
      | int n => simp [loadIncludes] at h
      | bool b0 => simp [loadIncludes] at h
      | null => simp [loadIncludes] at h
      | seq xs => simp [loadIncludes] at h
      | map m => simp [loadIncludes] at h

/-- C3: diamond tolerance.
(1) Whenever the include graph reachable in the filesystem is acyclic — as
witnessed by any rank function that strictly decreases across every include
edge — a load from any root never fails with CircularInclude: sharing a file
between two sibling branches is never mistaken for a cycle, because the
recursion hands each include a copy of the extended ancestor chain, so a
sibling never sees the other branch on its stack.
(2) On the concrete diamond (config -> left -> shared, config -> right ->
shared) the load succeeds, and the shared file's key appears exactly once in
the result, whose keys are pairwise distinct. -/
theorem claim_C3 :
    (∀ (fs : FS) (rank : String → Nat),
      (∀ p ∈ fs.map Prod.fst, ∀ q ∈ childPaths fs p, rank q < rank p) →
      ∀ (fuel : Nat) (p : String) (req : Option (List String)) (env : Env) (c : List String),
        load_config fs fuel p req [] env ≠
          some (Except.error (LoadErr.circularInclude c))) ∧
    (load_config fsDiamond 3 "/t/config.yaml" none [] [] =
      some (Except.ok ([("shared", Val.str "value"), ("left", Val.str "value"),
        ("right", Val.str "value"), ("main", Val.str "value")], [])) ∧
      keysNodupB [("shared", Val.str "value"), ("left", Val.str "value"),
        ("right", Val.str "value"), ("main", Val.str "value")] = true) := by
  constructor
  · intro fs rank hr fuel p req env c
    exact (no_false_cycle fs rank hr fuel).1 p req [] env (by simp) c
  · constructor
    · simp [load_config, loadIncludes, fsDiamond, fsGet, rootPostProcess, deep_merge, setKey,
        containsK, lookupK, removeKey, removeFirst, resolvePath, iterValues, seedEnv,
        show parentDir "/t/config.yaml" = "/t" from rfl,
        show parentDir "/t/left.yaml" = "/t" from rfl,
        show parentDir "/t/right.yaml" = "/t" from rfl,
        show slashJoin "/t" "left.yaml" = "/t/left.yaml" from rfl,
        show slashJoin "/t" "right.yaml" = "/t/right.yaml" from rfl,
        show slashJoin "/t" "shared.yaml" = "/t/shared.yaml" from rfl]
    · decide

theorem claim_C3_witness :
    load_config fsDiamond 3 "/t/config.yaml" none [] [] ≠
      some (Except.error (LoadErr.circularInclude [])) :=
  claim_C3.1 fsDiamond
    (fun x => if x = "/t/config.yaml" then 2 else if x = "/t/shared.yaml" then 0 else 1)
    (by decide) 3 "/t/config.yaml" none [] []

theorem envGet_append (a b : Env) (k : String) :
    envGet (a ++ b) k =
      match envGet a k with
      | some w => some w
      | none => envGet b k := by
  induction a with
  | nil => simp [envGet]
  | cons p rest ih =>
    obtain ⟨k0, v0⟩ := p
    by_cases h : k0 = k <;> simp [envGet, h, ih]

theorem seedEnv_nil (env : Env) : seedEnv env [] = env := rfl

theorem seedEnv_cons (env : Env) (k0 : String) (v0 : Val) (rest : Dict) :
    seedEnv env ((k0, v0) :: rest) =
      seedEnv (if envHas env k0 then env else env ++ [(k0, pyStr v0)]) rest := by
  by_cases h : envHas env k0 = true <;> simp [seedEnv, h]

theorem seedEnv_preserves (em : Dict) :
    ∀ (env : Env) (k : String), envHas env k = true →
      envGet (seedEnv env em) k = envGet env k := by
  induction em with
  | nil =>
    intro env k _
    simp [seedEnv_nil]
  | cons kv rest ih =>
    obtain ⟨k0, v0⟩ := kv
    intro env k hk
    rw [seedEnv_cons]
    by_cases h0 : envHas env k0 = true
    · rw [if_pos h0]
      exact ih env k hk
    · rw [if_neg h0]
      have hk2 : envHas (env ++ [(k0, pyStr v0)]) k = true := by
        simp only [envHas, envGet_append]
        cases hg : envGet env k with
        | none => simp [envHas, hg] at hk
        | some w => simp
      rw [ih (env ++ [(k0, pyStr v0)]) k hk2, envGet_append]
      cases hg : envGet env k with
      | none => simp [envHas, hg] at hk
      | some w => simp

theorem seedEnv_sets (em : Dict) :
    ∀ (env : Env) (k : String) (v : Val), envHas env k = false →
      lookupK em k = some v →
      envGet (seedEnv env em) k = some (pyStr v) := by
  induction em with
  | nil =>
    intro env k v _ hl
    simp [lookupK] at hl
  | cons kv rest ih =>
    obtain ⟨k0, v0⟩ := kv
    intro env k v hk hl
    rw [seedEnv_cons]
    by_cases hke : k0 = k
    · subst hke
      have hv : v0 = v := by simpa [lookupK] using hl
      subst hv
      rw [if_neg (by simp [hk])]
      have hget : envGet env k0 = none := by
        cases hg : envGet env k0 with
        | none => rfl
        | some w => simp [envHas, hg] at hk
      have hset : envGet (env ++ [(k0, pyStr v0)]) k0 = some (pyStr v0) := by
        rw [envGet_append, hget]
        simp [envGet]
      have hk2 : envHas (env ++ [(k0, pyStr v0)]) k0 = true := by
        simp [envHas, hset]
      rw [seedEnv_preserves rest (env ++ [(k0, pyStr v0)]) k0 hk2, hset]
    · have hl2 : lookupK rest k = some v := by simpa [lookupK, hke] using hl
      by_cases h0 : envHas env k0 = true
      · rw [if_pos h0]
        exact ih env k v hk hl2
      · rw [if_neg h0]
        have hk2 : envHas (env ++ [(k0, pyStr v0)]) k = false := by
          simp only [envHas, envGet_append]
          cases hg : envGet env k with
          | some w => simp [envHas, hg] at hk
          | none =>
            simp only [hg]
            simp [envGet, hke]
        exact ih (env ++ [(k0, pyStr v0)]) k v hk2 hl2

theorem removeFirst_singleton (x : String) : removeFirst [x] x = [] := by
  simp [removeFirst]

theorem removeFirst_length (l : List String) (y : String) :
    l.length - 1 ≤ (removeFirst l y).length := by
  induction l with
  | nil => simp [removeFirst]
  | cons x rest ih =>
    by_cases h : x = y
    · simp [removeFirst, h]
    · simp only [removeFirst, if_neg h, List.length_cons]
      omega

theorem removeFirst_append_ne_nil (s : List String) (x : String) (hs : s ≠ []) :
    removeFirst (s ++ [x]) x ≠ [] := by
  have h1 : (s ++ [x]).length - 1 ≤ (removeFirst (s ++ [x]) x).length :=
    removeFirst_length (s ++ [x]) x
  have h2 : (s ++ [x]).length = s.length + 1 := by simp
  have h3 : 1 ≤ s.length := by
    cases s with
    | nil => exact absurd rfl hs
    | cons a r => simp
  intro hnil
  rw [hnil] at h1
  simp only [List.length_nil] at h1
  rw [h2] at h1
  omega

theorem rootPostProcess_nonroot_env (c : Dict) (p : String) (req : Option (List String))
    (sa : List String) (env : Env) (d : Dict) (e : Env) (hsa : sa ≠ [])
    (h : rootPostProcess c p req sa env = Except.ok (d, e)) : e = env := by
  unfold rootPostProcess at h
  rw [if_neg (by simpa using hsa)] at h
  simp at h
  exact h.2.symm

theorem rootPostProcess_root_env (c : Dict) (p : String) (req : Option (List String))
    (env : Env) (d : Dict) (e : Env)
    (h : rootPostProcess c p req [] env = Except.ok (d, e)) :
    (∃ em, lookupK c "env" = some (Val.map em) ∧ e = seedEnv env em) ∨
      (lookupK c "env" = none ∧ e = env) := by
  unfold rootPostProcess at h
  rw [if_pos (show (List.nil : List String).isEmpty = true from rfl)] at h
  cases henv : lookupK c "env" with
  | some v =>
    cases v with
    | map em =>
      simp only [henv] at h
      left
      refine ⟨em, rfl, ?_⟩
      split at h
      · rw [validateRequiredKeys_spec] at h
        split at h
        · simp [Except.map] at h
          exact h.2.symm
        · simp [Except.map] at h
      · simp at h
        exact h.2.symm
    | str s0 => simp [henv] at h
    | int n => simp [henv] at h
    | bool b0 => simp [henv] at h
    | null => simp [henv] at h
    | seq xs => simp [henv] at h
  | none =>
    simp only [henv] at h
    right
    refine ⟨rfl, ?_⟩
    split at h
    · rw [validateRequiredKeys_spec] at h
      split at h
      · simp [Except.map] at h
        exact h.2.symm
      · simp [Except.map] at h
    · simp at h
      exact h.2.symm


theorem env_aux : ∀ fuel : Nat,
    (∀ fs p req s env d env', s ≠ [] →
      load_config fs fuel p req s env = some (Except.ok (d, env')) → env' = env) ∧
    (∀ fs dir incs stack env base bc env1, stack ≠ [] →
      loadIncludes fs fuel dir incs stack env base = some (Except.ok (bc, env1)) →
      env1 = env) := by
  intro fuel
  induction fuel with
  | zero =>
    constructor
    · intro fs p req s env d env' _ h
      simp [load_config] at h
    · intro fs dir incs stack env base bc env1 _ h
      cases incs with
      | nil =>
        simp [loadIncludes] at h
        exact h.2.symm
      | cons v rest => cases v <;> simp [loadIncludes, load_config] at h
  | succ f ihf =>
    have hP : ∀ fs p req s env d env', s ≠ [] →
        load_config fs (f + 1) p req s env = some (Except.ok (d, env')) → env' = env := by
      intro fs p req s env d env' hs h
      simp only [load_config] at h
      cases hfs : fsGet fs p with
      | none => simp [hfs] at h
      | some fd =>
        by_cases hmem : resolvePath p ∈ s
        · simp [hfs, hmem] at h
        · have hsa : removeFirst (s ++ [resolvePath p]) (resolvePath p) ≠ [] :=
            removeFirst_append_ne_nil s (resolvePath p) hs
          cases fd with
          | bad => simp [hfs, hmem] at h
          | parsed pv =>
            cases pv with
            | none =>
              simp only [hfs] at h
              rw [if_neg hmem] at h
              exact rootPostProcess_nonroot_env _ _ _ _ _ _ _ hsa (Option.some.inj h)
            | some v =>
              cases v with
              | map config0 =>
                simp only [hfs] at h
                rw [if_neg hmem] at h
                by_cases hinc : containsK config0 "loaden_include" = true
                · rw [if_pos hinc] at h
                  cases hit : iterValues ((lookupK config0 "loaden_include").getD Val.null) with
                  | error e => simp [hit] at h
                  | ok incs =>
                    simp only [hit] at h
                    cases hli : loadIncludes fs f (parentDir p) incs (s ++ [resolvePath p]) env [] with
                    | none => simp [hli] at h
                    | some r =>
                      simp only [hli] at h
                      cases r with
                      | error e => simp at h
                      | ok pr =>
                        obtain ⟨bc, env1⟩ := pr
                        have henv1 : env1 = env :=
                          ihf.2 fs (parentDir p) incs (s ++ [resolvePath p]) env [] bc env1
                            (by simp) hli
                        have := rootPostProcess_nonroot_env _ _ _ _ _ _ _ hsa (Option.some.inj h)
                        rw [this, henv1]
                · rw [if_neg hinc] at h
                  exact rootPostProcess_nonroot_env _ _ _ _ _ _ _ hsa (Option.some.inj h)
              | str s0 => simp [hfs, hmem] at h
              | int n => simp [hfs, hmem] at h
              | bool b0 => simp [hfs, hmem] at h
              | null => simp [hfs, hmem] at h
              | seq xs => simp [hfs, hmem] at h
    refine ⟨hP, ?_⟩
    intro fs dir incs
    induction incs with
    | nil =>
      intro stack env base bc env1 _ h
      simp [loadIncludes] at h
      exact h.2.symm
    | cons v rest ihr =>
      intro stack env base bc env1 hst h
      cases v with
      | str rel =>
        simp only [loadIncludes] at h
        cases hl : load_config fs (f + 1) (slashJoin dir rel) none stack env with
        | none => simp [hl] at h
        | some r =>
          simp only [hl] at h
          cases r with
          | error e => simp at h
          | ok pr =>
            obtain ⟨included, env2⟩ := pr
            have h2 : env2 = env :=
              hP fs (slashJoin dir rel) none stack env included env2 hst hl
            have h3 := ihr stack env2 (deep_merge base included) bc env1 hst h
            rw [h3, h2]
      | int n => simp [loadIncludes] at h
      | bool b0 => simp [loadIncludes] at h
      | null => simp [loadIncludes] at h
      | seq xs => simp [loadIncludes] at h
      | map m => simp [loadIncludes] at h

theorem load_root_env (fs : FS) (fuel : Nat) (p : String) (req : Option (List String))
    (env : Env) (d : Dict) (env' : Env)
    (h : load_config fs fuel p req [] env = some (Except.ok (d, env'))) :
    (∃ em, lookupK d "env" = some (Val.map em) ∧ env' = seedEnv env em) ∨
      (lookupK d "env" = none ∧ env' = env) := by
  cases fuel with
  | zero => simp [load_config] at h
  | succ f =>
    simp only [load_config] at h
    cases hfs : fsGet fs p with
    | none => simp [hfs] at h
    | some fd =>
      cases fd with
      | bad => simp [hfs] at h
      | parsed pv =>
        cases pv with
        | none =>
          simp only [hfs] at h
          rw [if_neg (by simp)] at h
          simp only [List.nil_append] at h
          rw [removeFirst_singleton] at h
          have hd := rootPostProcess_ok_dict _ _ _ _ _ _ _ (Option.some.inj h)
          subst hd
          exact rootPostProcess_root_env _ _ _ _ _ _ (Option.some.inj h)
        | some v =>
          cases v with
          | map config0 =>
            simp only [hfs] at h
            rw [if_neg (by simp)] at h
            simp only [List.nil_append] at h
            by_cases hinc : containsK config0 "loaden_include" = true
            · rw [if_pos hinc] at h
              cases hit : iterValues ((lookupK config0 "loaden_include").getD Val.null) with
              | error e => simp [hit] at h
              | ok incs =>
                simp only [hit] at h
                cases hli : loadIncludes fs f (parentDir p) incs [resolvePath p] env [] with
                | none => simp [hli] at h
                | some r =>
                  simp only [hli] at h
                  cases r with
                  | error e => simp at h
                  | ok pr =>
                    obtain ⟨bc, env1⟩ := pr
                    have henv1 : env1 = env :=
                      (env_aux f).2 fs (parentDir p) incs [resolvePath p] env [] bc env1
                        (by simp) hli
                    rw [removeFirst_singleton] at h
                    have hd := rootPostProcess_ok_dict _ _ _ _ _ _ _ (Option.some.inj h)
                    subst hd
                    rw [henv1] at h
                    exact rootPostProcess_root_env _ _ _ _ _ _ (Option.some.inj h)
            · rw [if_neg hinc] at h
              rw [removeFirst_singleton] at h
              have hd := rootPostProcess_ok_dict _ _ _ _ _ _ _ (Option.some.inj h)
              subst hd
              exact rootPostProcess_root_env _ _ _ _ _ _ (Option.some.inj h)
          | str s0 => simp [hfs] at h
          | int n => simp [hfs] at h
          | bool b0 => simp [hfs] at h
          | null => simp [hfs] at h
          | seq xs => simp [hfs] at h

/-- C8: environment seeding.
(1) A call whose ancestor stack is nonempty — every recursive include load —
returns the environment unchanged: seeding happens only at the root.
(2) A root call that succeeds either finds an env section in the returned
document (which therefore remains present in it) and returns exactly the
seeded environment, or finds none and leaves the environment unchanged.
(3) A variable already present in the process environment keeps its value
through seeding.
(4) A variable absent from the process environment is set to the string form
of its config value. -/
theorem claim_C8 :
    (∀ (fs : FS) (fuel : Nat) (p : String) (req : Option (List String)) (s : List String)
        (env : Env) (d : Dict) (env' : Env), s ≠ [] →
      load_config fs fuel p req s env = some (Except.ok (d, env')) → env' = env) ∧
    (∀ (fs : FS) (fuel : Nat) (p : String) (req : Option (List String)) (env : Env)
        (d : Dict) (env' : Env),
      load_config fs fuel p req [] env = some (Except.ok (d, env')) →
      (∃ em, lookupK d "env" = some (Val.map em) ∧ env' = seedEnv env em) ∨
        (lookupK d "env" = none ∧ env' = env)) ∧
    (∀ (env : Env) (em : Dict) (k : String), envHas env k = true →
      envGet (seedEnv env em) k = envGet env k) ∧
    (∀ (env : Env) (em : Dict) (k : String) (v : Val), envHas env k = false →
      lookupK em k = some v → envGet (seedEnv env em) k = some (pyStr v)) :=
  ⟨fun fs fuel p req s env d env' => (env_aux fuel).1 fs p req s env d env',
   load_root_env,
   fun env em k => seedEnv_preserves em env k,
   fun env em k v => seedEnv_sets em env k v⟩

theorem claim_C8_witness :
    (([("X", "1")] : Env) = [("X", "1")]) ∧
    ((∃ em, lookupK [("env", Val.map [("NEW_VAR", Val.str "new"), ("OLD_VAR", Val.str "config")]),
          ("key", Val.str "v")] "env" = some (Val.map em) ∧
        ([("OLD_VAR", "shell"), ("NEW_VAR", "new")] : Env) =
          seedEnv [("OLD_VAR", "shell")] em) ∨
      (lookupK [("env", Val.map [("NEW_VAR", Val.str "new"), ("OLD_VAR", Val.str "config")]),
          ("key", Val.str "v")] "env" = none ∧
        ([("OLD_VAR", "shell"), ("NEW_VAR", "new")] : Env) = [("OLD_VAR", "shell")])) ∧
    (envGet (seedEnv [("OLD_VAR", "shell")]
        [("NEW_VAR", Val.str "new"), ("OLD_VAR", Val.str "config")]) "OLD_VAR" =
      envGet [("OLD_VAR", "shell")] "OLD_VAR") ∧
    (envGet (seedEnv [("OLD_VAR", "shell")]
        [("NEW_VAR", Val.str "new"), ("OLD_VAR", Val.str "config")]) "NEW_VAR" =
      some (pyStr (Val.str "new"))) := by
  refine ⟨?_, ?_, ?_, ?_⟩
  · exact claim_C8.1 fsMulti 1 "/t/first.yaml" none ["/t/main.yaml"] [("X", "1")]
      [("a", Val.int 1), ("b", Val.str "first")] [("X", "1")] (by simp)
      (by simp [load_config, fsMulti, fsGet, rootPostProcess, containsK, lookupK,
        removeFirst, resolvePath])
  · exact claim_C8.2.1 fsEnv 1 "/t/env.yaml" none [("OLD_VAR", "shell")]
      [("env", Val.map [("NEW_VAR", Val.str "new"), ("OLD_VAR", Val.str "config")]),
       ("key", Val.str "v")]
      [("OLD_VAR", "shell"), ("NEW_VAR", "new")]
      (by simp [load_config, fsEnv, fsGet, rootPostProcess, containsK, lookupK,
        removeFirst, resolvePath, seedEnv, envHas, envGet, pyStr])
  · exact claim_C8.2.2.1 [("OLD_VAR", "shell")]
      [("NEW_VAR", Val.str "new"), ("OLD_VAR", Val.str "config")] "OLD_VAR" (by rfl)
  · exact claim_C8.2.2.2 [("OLD_VAR", "shell")]
      [("NEW_VAR", Val.str "new"), ("OLD_VAR", Val.str "config")] "NEW_VAR"
      (Val.str "new") (by rfl) (by rfl)

theorem freshAddr_cons (a : Nat) (d : PDict) (h : Heap) :
    freshAddr ((a, d) :: h) = max (a + 1) (freshAddr h) := rfl

theorem hGet_some_lt_fresh (h : Heap) (a : Nat) (d : PDict)
    (hg : hGet h a = some d) : a < freshAddr h := by
  induction h with
  | nil => simp [hGet] at hg
  | cons e rest ih =>
    obtain ⟨a0, d0⟩ := e
    rw [freshAddr_cons]
    by_cases he : a0 = a
    · subst he
      omega
    · simp only [hGet, if_neg he] at hg
      have := ih hg
      omega

theorem hGet_cons_ne (a0 : Nat) (d0 : PDict) (h : Heap) (a : Nat) (hne : a0 ≠ a) :
    hGet ((a0, d0) :: h) a = hGet h a := by
  simp [hGet, hne]

theorem hGet_hSet_ne (h : Heap) (a : Nat) (nd : PDict) (a' : Nat) (hne : a' ≠ a) :
    hGet (hSet h a nd) a' = hGet h a' := by
  induction h with
  | nil => simp [hSet]
  | cons e rest ih =>
    obtain ⟨a0, d0⟩ := e
    by_cases he : a0 = a
    · subst he
      simp only [hSet, if_pos rfl]
      have h2 : ¬(a0 = a') := fun hx => hne hx.symm
      simp [hGet, h2]
    · simp only [hSet, if_neg he]
      by_cases h2 : a0 = a'
      · subst h2
        simp [hGet]
      · simp [hGet, h2, ih]

theorem freshAddr_hSet (h : Heap) (a : Nat) (nd : PDict) :
    freshAddr (hSet h a nd) = freshAddr h := by
  induction h with
  | nil => simp [hSet]
  | cons e rest ih =>
    obtain ⟨a0, d0⟩ := e
    by_cases he : a0 = a
    · subst he
      simp [hSet, freshAddr_cons]
    · simp only [hSet, if_neg he]
      rw [freshAddr_cons, freshAddr_cons, ih]

theorem loop_frame_step (fuel : Nat)
    (hmerge : ∀ h b o h' r, deep_merge_heap fuel h b o = some (h', r) →
      (∀ a, a < freshAddr h → hGet h' a = hGet h a) ∧ freshAddr h ≤ freshAddr h') :
    ∀ (ents : PDict) (h : Heap) (r : Nat) (h' : Heap) (r' : Nat),
      r < freshAddr h → mergeLoop fuel h r ents = some (h', r') →
      (∀ a, a < freshAddr h → a ≠ r → hGet h' a = hGet h a) ∧
        freshAddr h ≤ freshAddr h' := by
  intro ents
  induction ents with
  | nil =>
    intro h r h' r' _ hm
    simp [mergeLoop] at hm
    rw [← hm.1]
    exact ⟨fun _ _ _ => rfl, Nat.le_refl _⟩
  | cons kv rest ih =>
    obtain ⟨k, v⟩ := kv
    intro h r h' r' hr hm
    simp only [mergeLoop] at hm
    cases hrg : hGet h r with
    | none => simp [hrg] at hm
    | some rents =>
      simp only [hrg] at hm
      have helse : ∀ w : PVal,
          mergeLoop fuel (hSet h r (psetKey rents k w)) r rest = some (h', r') →
          (∀ a, a < freshAddr h → a ≠ r → hGet h' a = hGet h a) ∧
            freshAddr h ≤ freshAddr h' := by
        intro w hm2
        have hfr : freshAddr (hSet h r (psetKey rents k w)) = freshAddr h :=
          freshAddr_hSet h r _
        have hr2 : r < freshAddr (hSet h r (psetKey rents k w)) := by
          rw [hfr]
          exact hr
        obtain ⟨frame2, fr2⟩ := ih _ r h' r' hr2 hm2
        constructor
        · intro a ha hane
          have ha1 : a < freshAddr (hSet h r (psetKey rents k w)) := by
            rw [hfr]
            exact ha
          rw [frame2 a ha1 hane, hGet_hSet_ne h r _ a hane]
        · rw [hfr] at fr2
          exact fr2
      cases hpl : plookup rents k with
      | none =>
        simp only [hpl] at hm
        exact helse v hm
      | some pv =>
        cases pv with
        | str s => simp only [hpl] at hm; exact helse v hm
        | int n => simp only [hpl] at hm; exact helse v hm
        | bool b0 => simp only [hpl] at hm; exact helse v hm
        | null => simp only [hpl] at hm; exact helse v hm
        | list xs => simp only [hpl] at hm; exact helse v hm
        | ref a0 =>
          cases v with
          | str s => simp only [hpl] at hm; exact helse (PVal.str s) hm
          | int n => simp only [hpl] at hm; exact helse (PVal.int n) hm
          | bool b0 => simp only [hpl] at hm; exact helse (PVal.bool b0) hm
          | null => simp only [hpl] at hm; exact helse PVal.null hm
          | list xs => simp only [hpl] at hm; exact helse (PVal.list xs) hm
          | ref b0 =>
            simp only [hpl] at hm
            cases hdm : deep_merge_heap fuel h a0 b0 with
            | none => simp [hdm] at hm
            | some pr =>
              obtain ⟨h1, sub⟩ := pr
              simp only [hdm] at hm
              obtain ⟨frame1, fr1⟩ := hmerge h a0 b0 h1 sub hdm
              have hg1 : hGet h1 r = some rents := by
                rw [frame1 r hr]
                exact hrg
              simp only [hg1] at hm
              have hr2 : r < freshAddr (hSet h1 r (psetKey rents k (PVal.ref sub))) := by
                rw [freshAddr_hSet]
                omega
              obtain ⟨frame2, fr2⟩ := ih _ r h' r' hr2 hm
              constructor
              · intro a ha hane
                have ha1 : a < freshAddr (hSet h1 r (psetKey rents k (PVal.ref sub))) := by
                  rw [freshAddr_hSet]
                  omega
                rw [frame2 a ha1 hane, hGet_hSet_ne h1 r _ a hane, frame1 a ha]
              · rw [freshAddr_hSet] at fr2
                omega

theorem merge_heap_frame : ∀ fuel : Nat,
    ∀ (h : Heap) (b o : Nat) (h' : Heap) (r : Nat),
      deep_merge_heap fuel h b o = some (h', r) →
      (∀ a, a < freshAddr h → hGet h' a = hGet h a) ∧ freshAddr h ≤ freshAddr h' := by
  intro fuel
  induction fuel with
  | zero =>
    intro h b o h' r hm
    simp [deep_merge_heap] at hm
  | succ f ihf =>
    intro h b o h' r hm
    simp only [deep_merge_heap] at hm
    cases hb : hGet h b with
    | none => simp [hb] at hm
    | some bents =>
      cases ho : hGet h o with
      | none => simp [hb, ho] at hm
      | some oents =>
        simp only [hb, ho] at hm
        have hfr1 : freshAddr ((freshAddr h, bents) :: h) = freshAddr h + 1 := by
          rw [freshAddr_cons]
          omega
        have hrlt : freshAddr h < freshAddr ((freshAddr h, bents) :: h) := by
          omega
        obtain ⟨frame, fr⟩ := loop_frame_step f ihf oents _ (freshAddr h) h' r hrlt hm
        constructor
        · intro a ha
          have hane : a ≠ freshAddr h := by omega
          have ha1 : a < freshAddr ((freshAddr h, bents) :: h) := by omega
          rw [frame a ha1 hane, hGet_cons_ne (freshAddr h) bents h a (fun hx => hane hx.symm)]
        · omega


theorem snap_frame : ∀ (sf : Nat) (h h' : Heap),
    (∀ a, a < freshAddr h → hGet h' a = hGet h a) →
    (∀ pv t, snapVal sf h pv = some t → snapVal sf h' pv = some t) ∧
    (∀ xs ts, snapList sf h xs = some ts → snapList sf h' xs = some ts) ∧
    (∀ ds ts, snapDict sf h ds = some ts → snapDict sf h' ds = some ts) := by
  intro sf
  induction sf with
  | zero =>
    intro h h' _
    refine ⟨?_, ?_, ?_⟩
    · intro pv t hx
      simp [snapVal] at hx
    · intro xs ts hx
      simp [snapList] at hx
    · intro ds ts hx
      simp [snapDict] at hx
  | succ f ihf =>
    intro h h' hfr
    obtain ⟨ihv, ihl, ihd⟩ := ihf h h' hfr
    refine ⟨?_, ?_, ?_⟩
    · intro pv t hx
      cases pv with
      | str s =>
        simp only [snapVal] at hx ⊢
        exact hx
      | int n =>
        simp only [snapVal] at hx ⊢
        exact hx
      | bool b =>
        simp only [snapVal] at hx ⊢
        exact hx
      | null =>
        simp only [snapVal] at hx ⊢
        exact hx
      | list xs =>
        simp only [snapVal] at hx ⊢
        cases hsl : snapList f h xs with
        | none => simp [hsl] at hx
        | some ts =>
          simp only [hsl] at hx
          simp only [ihl xs ts hsl]
          exact hx
      | ref a =>
        simp only [snapVal] at hx ⊢
        cases hga : hGet h a with
        | none => simp [hga] at hx
        | some d =>
          simp only [hga] at hx
          have hlt := hGet_some_lt_fresh h a d hga
          have hga2 : hGet h' a = some d := by
            rw [hfr a hlt]
            exact hga
          simp only [hga2]
          cases hsd : snapDict f h d with
          | none => simp [hsd] at hx
          | some ds =>
            simp only [hsd] at hx
            simp only [ihd d ds hsd]
            exact hx
    · intro xs ts hx
      cases xs with
      | nil =>
        simp only [snapList] at hx ⊢
        exact hx
      | cons v rest =>
        simp only [snapList] at hx ⊢
        cases hv : snapVal f h v with
        | none => simp [hv] at hx
        | some t0 =>
          simp only [hv] at hx
          cases hl : snapList f h rest with
          | none => simp [hl] at hx
          | some ts0 =>
            simp only [hl] at hx
            simp only [ihv v t0 hv, ihl rest ts0 hl]
            exact hx
    · intro ds ts hx
      cases ds with
      | nil =>
        simp only [snapDict] at hx ⊢
        exact hx
      | cons kv rest =>
        obtain ⟨k, v⟩ := kv
        simp only [snapDict] at hx ⊢
        cases hv : snapVal f h v with
        | none => simp [hv] at hx
        | some t0 =>
          simp only [hv] at hx
          cases hl : snapDict f h rest with
          | none => simp [hl] at hx
          | some ts0 =>
            simp only [hl] at hx
            simp only [ihv v t0 hv, ihd rest ts0 hl]
            exact hx

/-- C6: `deep_merge` mutates neither input.  In the heap model, every dict
object that existed before the call — every address below the allocation
bound — holds exactly its old entries afterwards: the loop writes only into
freshly allocated result objects.  Consequently the deep structural
snapshots of both inputs, at every depth, read back unchanged after the
call, on the success path and through every nested recursive merge. -/
theorem claim_C6 (fuel : Nat) (h : Heap) (b o : Nat) (h2 : Heap) (r : Nat)
    (hm : deep_merge_heap fuel h b o = some (h2, r)) :
    (∀ a, a < freshAddr h → hGet h2 a = hGet h a) ∧
    (∀ (sf : Nat) (tb : Val), snapVal sf h (PVal.ref b) = some tb →
      snapVal sf h2 (PVal.ref b) = some tb) ∧
    (∀ (sf : Nat) (tv : Val), snapVal sf h (PVal.ref o) = some tv →
      snapVal sf h2 (PVal.ref o) = some tv) := by
  have hframe := merge_heap_frame fuel h b o h2 r hm
  refine ⟨hframe.1, ?_, ?_⟩
  · intro sf tb hs
    exact (snap_frame sf h h2 hframe.1).1 _ tb hs
  · intro sf tv hs
    exact (snap_frame sf h h2 hframe.1).1 _ tv hs

theorem claim_C6_witness :
    (hGet ((3, [("a", PVal.null), ("m", PVal.ref 1)]) ::
        [(0, [("a", PVal.int 1), ("m", PVal.ref 1)]), (1, [("x", PVal.bool true)]),
         (2, [("a", PVal.null)])]) 0 =
      hGet [(0, [("a", PVal.int 1), ("m", PVal.ref 1)]), (1, [("x", PVal.bool true)]),
        (2, [("a", PVal.null)])] 0) ∧
    (snapVal 6 ((3, [("a", PVal.null), ("m", PVal.ref 1)]) ::
        [(0, [("a", PVal.int 1), ("m", PVal.ref 1)]), (1, [("x", PVal.bool true)]),
         (2, [("a", PVal.null)])]) (PVal.ref 0) =
      some (Val.map [("a", Val.int 1), ("m", Val.map [("x", Val.bool true)])])) ∧
    (snapVal 6 ((3, [("a", PVal.null), ("m", PVal.ref 1)]) ::
        [(0, [("a", PVal.int 1), ("m", PVal.ref 1)]), (1, [("x", PVal.bool true)]),
         (2, [("a", PVal.null)])]) (PVal.ref 2) =
      some (Val.map [("a", Val.null)])) := by
  have hm : deep_merge_heap 1
      [(0, [("a", PVal.int 1), ("m", PVal.ref 1)]), (1, [("x", PVal.bool true)]),
       (2, [("a", PVal.null)])] 0 2 =
      some ((3, [("a", PVal.null), ("m", PVal.ref 1)]) ::
        [(0, [("a", PVal.int 1), ("m", PVal.ref 1)]), (1, [("x", PVal.bool true)]),
         (2, [("a", PVal.null)])], 3) := by
    simp [deep_merge_heap, mergeLoop, hGet, hSet, freshAddr, plookup, psetKey]
  have hC := claim_C6 1
    [(0, [("a", PVal.int 1), ("m", PVal.ref 1)]), (1, [("x", PVal.bool true)]),
     (2, [("a", PVal.null)])] 0 2
    ((3, [("a", PVal.null), ("m", PVal.ref 1)]) ::
      [(0, [("a", PVal.int 1), ("m", PVal.ref 1)]), (1, [("x", PVal.bool true)]),
       (2, [("a", PVal.null)])]) 3 hm
  refine ⟨hC.1 0 (by simp [freshAddr]), ?_, ?_⟩
  · exact hC.2.1 6 (Val.map [("a", Val.int 1), ("m", Val.map [("x", Val.bool true)])])
      (by simp [snapVal, snapList, snapDict, hGet])
  · exact hC.2.2 6 (Val.map [("a", Val.null)])
      (by simp [snapVal, snapList, snapDict, hGet])

end Loaden
